import Mathlib

/-!
# WoWBot backend: the broadcast hub of `backend/main.go`

A shallow embedding of the websocket hub (`ClientManager.start`, `ClientManager.send`),
the per-connection read loop (`Client.read`) and the prompt builder of `askGPT`.

Modelling conventions.

* A `*Client` pointer is a `Client` value; its `addr` field is the pointer identity.
  Every client owns exactly one `send` channel (made in `wsPage`), so a channel is
  identified with its client.
* `send` channels are unbuffered (`make(chan []byte)`): a channel holds no frames.  Its only
  state is whether it has been closed.  A send completes when the connection's write loop
  receives; whether it does so is an input of every hub step.
* What the hub does to the channels is recorded as a trace of `Effect`s.
* Frames are kept as `Message` values; `json.Marshal` is not modelled.
* The key set of the Go map `manager.clients` is a list without duplicates.  The order in
  which `range` visits the keys is unspecified in Go; it is an input of every hub step
  (`Env.rank`), as is the readiness of the write loops (`Env.accepts`).
-/

set_option linter.unusedVariables false

namespace WoWBot

/-- The struct `Message` (line 32). -/
structure Message where
  Sender : String
  Recipient : String
  Content : String
deriving DecidableEq

/-- The struct `Client` (line 26): `addr` is the identity of the pointer, `id` the uuid. -/
structure Client where
  addr : Nat
  id : String
deriving DecidableEq

/-- The struct `ClientManager` (line 19) with the part of the heap it reaches:
`clients` are the keys of the map, `closed` the clients whose `send` channel is closed. -/
structure ClientManager where
  clients : List Client
  closed : List Client
deriving DecidableEq

/-- The package variable `manager` (line 40): no member, no channel closed. -/
def manager : ClientManager := ⟨[], []⟩

/-- An operation of the hub on a `send` channel: a completed send, or a close. -/
inductive Effect where
  | send (c : Client) (m : Message)
  | close (c : Client)
deriving DecidableEq

/-- How a piece of the hub loop ends: it ran to its end (`done`), the hub goroutine is parked
on a channel send to `c` that no receiver takes (`blocked`), or the runtime panicked
(send on a closed channel, close of a closed channel). -/
inductive Outcome where
  | done (m : ClientManager)
  | blocked (m : ClientManager) (c : Client)
  | panic
deriving DecidableEq

/-- Result of running hub code: the outcome and the channel operations performed. -/
structure Run where
  out : Outcome
  trace : List Effect
deriving DecidableEq

/-- Prefix a run with one more channel operation. -/
def Run.cons (e : Effect) (r : Run) : Run := ⟨r.out, e :: r.trace⟩

/-- What the Go runtime decides during one turn of the hub loop: which write loops take a
frame from their `send` channel (`accepts`), and the order in which `range` visits the keys
of `manager.clients` (by increasing `rank`, keys of equal rank in the order of the list).
Go leaves that order unspecified and lets it change from one loop to the next. -/
structure Env where
  accepts : Client → Bool
  rank : Client → Nat

/-- The keys of the map in the order `range` visits them. -/
def rangeKeys (rank : Client → Nat) (clients : List Client) : List Client :=
  clients.insertionSort (fun a b => rank a ≤ rank b)

/-- The announcement built on line 164. -/
def joinMessage : Message := ⟨"", "", "/A new socket has connected."⟩

/-- The announcement built on line 170. -/
def leaveMessage : Message := ⟨"", "", "/A socket has disconnected."⟩

/-- The loop of `ClientManager.send` (lines 187-191) over the keys still to visit:
a blocking send `conn.send <- message` to every key other than `ignore`. -/
def sendLoop (accepts : Client → Bool) (message : Message) (ignore : Client)
    (m : ClientManager) : List Client → Run
  | [] => ⟨.done m, []⟩
  | conn :: rest =>
    if conn ≠ ignore then
      if conn ∈ m.closed then ⟨.panic, []⟩
      else if accepts conn then
        (sendLoop accepts message ignore m rest).cons (.send conn message)
      else ⟨.blocked m conn, []⟩
    else sendLoop accepts message ignore m rest

/-- The method `func (manager *ClientManager) send(message []byte, ignore *Client)` (line 186). -/
def ClientManager.send (env : Env) (m : ClientManager) (message : Message)
    (ignore : Client) : Run :=
  sendLoop env.accepts message ignore m (rangeKeys env.rank m.clients)

/-- The statements `close(conn.send); delete(manager.clients, conn)` (lines 168-169 and
178-179), for a channel that is still open. -/
def ClientManager.evict (m : ClientManager) (conn : Client) : ClientManager :=
  ⟨m.clients.filter (fun x => x ≠ conn), conn :: m.closed⟩

/-- The loop of the broadcast case (lines 174-181) over the keys still to visit: a
non-blocking send, and on `default` the channel is closed and the key deleted. -/
def broadcastLoop (accepts : Client → Bool) (message : Message) :
    ClientManager → List Client → Run
  | m, [] => ⟨.done m, []⟩
  | m, conn :: rest =>
    if conn ∈ m.closed then ⟨.panic, []⟩
    else if accepts conn then
      (broadcastLoop accepts message m rest).cons (.send conn message)
    else
      (broadcastLoop accepts message (m.evict conn) rest).cons (.close conn)

/-- The case `message := <-manager.broadcast` (lines 173-181). -/
def ClientManager.broadcast (env : Env) (m : ClientManager) (message : Message) : Run :=
  broadcastLoop env.accepts message m (rangeKeys env.rank m.clients)

/-- The statement `manager.clients[conn] = true` (line 163): the key is added unless it is
there. -/
def ClientManager.add (m : ClientManager) (conn : Client) : ClientManager :=
  ⟨if conn ∈ m.clients then m.clients else m.clients ++ [conn], m.closed⟩

/-- The case `conn := <-manager.register` (lines 162-165). -/
def ClientManager.register (env : Env) (m : ClientManager) (conn : Client) : Run :=
  (m.add conn).send env joinMessage conn

/-- The case `conn := <-manager.unregister` (lines 166-172). -/
def ClientManager.unregister (env : Env) (m : ClientManager) (conn : Client) : Run :=
  if conn ∈ m.clients then
    if conn ∈ m.closed then ⟨.panic, []⟩
    else ((m.evict conn).send env leaveMessage conn).cons (.close conn)
  else ⟨.done m, []⟩

/-- What arrives on one of the three channels of the manager. -/
inductive Event where
  | register (conn : Client)
  | unregister (conn : Client)
  | broadcast (message : Message)
deriving DecidableEq

/-- One turn of the `select` of `ClientManager.start` (lines 161-182). -/
def ClientManager.step (env : Env) (m : ClientManager) : Event → Run
  | .register conn => m.register env conn
  | .unregister conn => m.unregister env conn
  | .broadcast message => m.broadcast env message

/-- The method `func (manager *ClientManager) start()` (line 159) on a finite sequence of
events, each with what the runtime decides while it is handled.  The loop goes on only
after a turn that ran to its end. -/
def ClientManager.start (m : ClientManager) : List (Env × Event) → Run
  | [] => ⟨.done m, []⟩
  | (env, ev) :: rest =>
    match m.step env ev with
    | ⟨.done m1, t⟩ => let r := m1.start rest; ⟨r.out, t ++ r.trace⟩
    | r => r

/-- Number of frames `msg` sent to `c` in a trace. -/
def sendCount (c : Client) (msg : Message) (t : List Effect) : Nat :=
  t.count (.send c msg)

/-- Number of sends to `c` in a trace, whatever the frame. -/
def sendsTo (c : Client) (t : List Effect) : Nat :=
  (t.filter (fun e => match e with
    | .send x _ => decide (x = c)
    | .close _ => false)).length

/-- Number of times the channel of `c` is closed in a trace. -/
def closeCount (c : Client) (t : List Effect) : Nat :=
  t.count (.close c)

/-- Well-formed hub state: the map keys are distinct and every member's channel is open. -/
def ClientManager.WF (m : ClientManager) : Prop :=
  m.clients.Nodup ∧ ∀ c ∈ m.clients, c ∉ m.closed

instance (m : ClientManager) : Decidable m.WF := by
  unfold ClientManager.WF; infer_instance

/-! ## The read loop of a connection -/

/-- What one turn of the loop of `Client.read` gets from the socket: `ReadMessage` failed,
or it returned bytes that `json.Unmarshal` rejects, or bytes that decode to a `Message`. -/
inductive Inbound where
  | readError
  | invalid
  | frame (incoming : Message)
deriving DecidableEq

/-- What the read loop does to the rest of the program: a send on `manager.unregister` or
`manager.broadcast`, a call of `c.socket.Close()`, a log line for an undecodable message, or
the start of the goroutine of lines 223-231 that calls `askGPT(input, username)`. -/
inductive Action where
  | unregister (c : Client)
  | closeSocket (c : Client)
  | logInvalid
  | broadcast (outgoing : Message)
  | askGPT (input : String) (username : String)
deriving DecidableEq

/-- Go's `unicode.ToLower` on one rune: the ASCII range is decided in place, every other
rune goes through the case tables of the Go library, here the parameter `caseTable`. -/
def unicodeToLower (caseTable : Char → Char) (r : Char) : Char :=
  if r.toNat ≤ 127 then
    if 65 ≤ r.toNat ∧ r.toNat ≤ 90 then Char.ofNat (r.toNat + 32) else r
  else caseTable r

/-- Go's `strings.ToLower` on a valid UTF-8 string: every rune is mapped. -/
def ToLower (caseTable : Char → Char) (s : String) : String :=
  String.mk (s.data.map (unicodeToLower caseTable))

/-- Go's `strings.HasPrefix`. -/
def HasPrefix (s p : String) : Bool :=
  p.data.isPrefixOf s.data

/-- Lines 214-232: one turn of the loop for a frame that decoded. -/
def readFrame (caseTable : Char → Char) (c : Client) (incoming : Message) : List Action :=
  let sender := if incoming.Sender = "" then c.id else incoming.Sender
  let outgoing : Message := ⟨sender, "", incoming.Content⟩
  if !HasPrefix (ToLower caseTable incoming.Content) "/" then
    [.broadcast outgoing, .askGPT incoming.Content sender]
  else [.broadcast outgoing]

/-- The `for` loop of `Client.read` (lines 200-233) on the inputs it gets, with whether it
left through `break`.  When the inputs run out the loop is waiting in `ReadMessage`. -/
def readLoop (caseTable : Char → Char) (c : Client) : List Inbound → List Action × Bool
  | [] => ([], false)
  | .readError :: _ => ([.unregister c, .closeSocket c], true)
  | .invalid :: rest =>
    let r := readLoop caseTable c rest
    (.logInvalid :: r.1, r.2)
  | .frame incoming :: rest =>
    let r := readLoop caseTable c rest
    (readFrame caseTable c incoming ++ r.1, r.2)

/-- The method `func (c *Client) read()` (line 194): the loop, and the deferred function
(lines 195-198) once the loop is left.  A send on a channel of the manager is recorded as an
action; it completes when the hub loop takes it. -/
def Client.read (caseTable : Char → Char) (c : Client) (inputs : List Inbound) :
    List Action :=
  let r := readLoop caseTable c inputs
  if r.2 then r.1 ++ [.unregister c, .closeSocket c] else r.1

/-- The inputs the loop handles: those before the first read error. -/
def handled : List Inbound → List Inbound
  | [] => []
  | .readError :: _ => []
  | i :: rest => i :: handled rest

/-- The frames among some inputs. -/
def decoded : List Inbound → List Message
  | [] => []
  | .frame m :: rest => m :: decoded rest
  | _ :: rest => decoded rest

/-- The contents of the broadcast events among some actions, in order. -/
def broadcastContents : List Action → List String
  | [] => []
  | .broadcast m :: rest => m.Content :: broadcastContents rest
  | _ :: rest => broadcastContents rest

/-- The inputs of the `askGPT` calls among some actions, in order. -/
def askGPTInputs : List Action → List String
  | [] => []
  | .askGPT input _ :: rest => input :: askGPTInputs rest
  | _ :: rest => askGPTInputs rest

/-- Number of unregister events for `c` among some actions. -/
def unregisterCount (c : Client) (as : List Action) : Nat :=
  as.count (.unregister c)

/-- Number of `c.socket.Close()` calls among some actions. -/
def closeSocketCount (c : Client) (as : List Action) : Nat :=
  as.count (.closeSocket c)

/-- Whether the first character of a string is `/`. -/
def beginsWithSlash (s : String) : Bool :=
  match s.data with
  | [] => false
  | ch :: _ => decide (ch = '/')

/-! ## The prompt builder of `askGPT` -/

/-- A decoded JSON value, as `encoding/json` stores it in an `interface{}`. -/
inductive Value where
  | null
  | bool (b : Bool)
  | number (text : String)
  | string (s : String)
  | array (vs : List Value)
  | object (kvs : List (String × Value))

/-- The type `Memory` (line 38): the entries of the map, in the order `range` visits them. -/
abbrev Memory := List (String × Value)

/-- The type assertion `.(map[string]interface{})`. -/
def Value.asObject : Value → Option (List (String × Value))
  | .object kvs => some kvs
  | _ => none

/-- The lookup and assertion `m[key].(string)` with the failure ignored (lines 96-98). -/
def stringField (m : List (String × Value)) (key : String) : String :=
  match m.lookup key with
  | some (.string s) => s
  | _ => ""

/-- What one turn of the loop of lines 85-103 appends to `userSummary`. -/
def summaryLine (userKey : String) (sectionVal : Value) : String :=
  match sectionVal.asObject with
  | none => ""
  | some sectionMap =>
    match (sectionMap.lookup "character").bind Value.asObject with
    | none => ""
    | some char =>
      let name := stringField char "name"
      let race := stringField char "race"
      let cls := stringField char "class"
      if name ≠ "" ∧ race ≠ "" ∧ cls ≠ "" then
        "User " ++ userKey ++ " plays a " ++ race ++ " " ++ cls ++ " named " ++ name ++ ".\n"
      else ""

/-- The loop of lines 84-103: `userSummary` after all entries of the store. -/
def userSummary (memory : Memory) : String :=
  memory.foldl (fun acc entry => acc ++ summaryLine entry.1 entry.2) ""

/-- The raw string of lines 113-140. -/
def pvpInstructions : String :=
  "The user team composition is already known and stored in memory. Make sure to consider our team\x27s composition\n" ++
  "\t\tin your decisions.\n" ++
  "\n" ++
  "\t\tThe user will provide two inputs and possibly the third:\n" ++
  "\t\t1. Opponent 1 spec and class\n" ++
  "\t\t2. Opponent 2 spec and class\n" ++
  "\t\t3. Arena map name\n" ++
  "\n" ++
  "\t\tYour job is to return a concise PvP strategy (can be read in under 15 seconds) that helps the user team win.\n" ++
  "\n" ++
  "\t\tAlways respond in the following format, but don\x27t include the Map section if no map was provided:\n" ++
  "\n" ++
  "\t\t\x2d\x2d\x2d\n" ++
  "\t\tStrategy Summary\n" ++
  "\n" ++
  "\t\t[Opponent 1]\n" ++
  "\t\t- Role: [What role they play]\n" ++
  "\t\t- Kill Target?: [Yes/No and explain why]\n" ++
  "\t\t- Swap Logic: [When to consider switching to them]\n" ++
  "\t\t- Danger Abilities: [Important CDs or crowd control]\n" ++
  "\t\t- Team Synergy: [How they support their partner]\n" ++
  "\n" ++
  "\t\t[Opponent 2]\n" ++
  "\t\t- Role: ...\n" ++
  "\t\t- (Same format as above)\n" ++
  "\n" ++
  "\t\tMap : [Arena map name]\n" ++
  "\t\t- [One or two tips specific to this arena]"

/-- The system prompt `askGPT` sends (lines 84-141), for the store `loadMemory` returned
(the empty store when it failed). -/
def systemPrompt (memory : Memory) (prompt username : String) : String :=
  let base := "You are a tactical assistant for World of Warcraft 2v2 PvP matches.\n"
  let withMemory :=
    if userSummary memory ≠ "" then base ++ "User memory:\n" ++ userSummary memory else base
  if prompt.data.count ',' ≥ 1 then withMemory ++ pvpInstructions else withMemory

/-- The store entry that `saveCharacter` writes for `username` (lines 457-465): a
`character` object with the keys `name`, `race`, `class`, `realm` and `talents`. -/
def savedEntry (username name race cls realm : String) (talents : Value) : String × Value :=
  (username, .object [("character",
    .object [("name", .string name), ("race", .string race), ("class", .string cls),
      ("realm", .string realm), ("talents", talents)])])

/-- A store entry for a participant with the given character. -/
def characterEntry (user name race cls : String) : String × Value :=
  (user, .object [("character",
    .object [("name", .string name), ("race", .string race), ("class", .string cls)])])

/-- The runtime of a turn in which every write loop receives and `range` visits the keys in
the order of the list. -/
def allReceive : Env := ⟨fun _ => true, fun _ => 0⟩

/-- The trace of a broadcast pass over the keys `l`. -/
def broadcastTrace (accepts : Client → Bool) (message : Message) (l : List Client) :
    List Effect :=
  l.map (fun c => if accepts c then Effect.send c message else Effect.close c)

/-- Replay of a trace from a set of closed channels: `true` when every send and every close
in the trace hits a channel that is open at that moment (neither would panic). -/
def traceOk : List Client → List Effect → Bool
  | _, [] => true
  | closed, .send c _ :: t => !(decide (c ∈ closed)) && traceOk closed t
  | closed, .close c :: t => !(decide (c ∈ closed)) && traceOk (c :: closed) t

/-- The closed channels after a trace. -/
def closedAfter : List Client → List Effect → List Client
  | closed, [] => closed
  | closed, .send _ _ :: t => closedAfter closed t
  | closed, .close c :: t => closedAfter (c :: closed) t

/-- The connections that a sequence of events registers, in order. -/
def registered : List (Env × Event) → List Client
  | [] => []
  | (_, .register c) :: rest => c :: registered rest
  | (_, .unregister _) :: rest => registered rest
  | (_, .broadcast _) :: rest => registered rest

/-- The hub state an outcome leaves behind, when there is one. -/
def Outcome.state : Outcome → Option ClientManager
  | .done m => some m
  | .blocked m _ => some m
  | .panic => none

/-- An event the program can submit in state `m`: `wsPage` registers a new client with a
new channel (lines 291-297), so a registered client is no member and its channel is open. -/
def admissible (m : ClientManager) : Event → Prop
  | .register c => c ∉ m.clients ∧ c ∉ m.closed
  | .unregister _ => True
  | .broadcast _ => True

/-- The members other than `conn`, in the order `range` visits them: the receivers of
`ClientManager.send` with `ignore = conn`. -/
def others (env : Env) (m : ClientManager) (conn : Client) : List Client :=
  (rangeKeys env.rank m.clients).filter (fun x => x ≠ conn)
theorem broadcastLoop_eq (accepts : Client → Bool) (message : Message) :
    ∀ (l : List Client) (m : ClientManager), l.Nodup → (∀ c ∈ l, c ∉ m.closed) →
      broadcastLoop accepts message m l =
        ⟨.done ⟨m.clients.filter (fun x => !(decide (x ∈ l) && !accepts x)),
                (l.filter (fun x => !accepts x)).reverse ++ m.closed⟩,
         broadcastTrace accepts message l⟩ := by
  intro l
  induction l with
  | nil => intro m _ _; simp [broadcastLoop, broadcastTrace]
  | cons conn rest ih =>
    intro m hnd hopen
    have hc : conn ∉ m.closed := hopen conn (List.mem_cons_self _ _)
    have hnd' : rest.Nodup := (List.nodup_cons.mp hnd).2
    have hnot : conn ∉ rest := (List.nodup_cons.mp hnd).1
    by_cases ha : accepts conn = true
    · have hrest : ∀ c ∈ rest, c ∉ m.closed := fun c h => hopen c (List.mem_cons_of_mem _ h)
      rw [broadcastLoop, if_neg hc, if_pos ha, ih m hnd' hrest]
      simp only [Run.cons, broadcastTrace, List.map_cons, if_pos ha]
      congr 2
      · congr 1
        · apply List.filter_congr
          intro x _
          by_cases hx : x = conn
          · subst hx; simp [ha]
          · simp [hx]
        · simp [List.filter_cons, ha]
    · have hrest : ∀ c ∈ rest, c ∉ (m.evict conn).closed := by
        intro c h hmem
        simp only [ClientManager.evict, List.mem_cons] at hmem
        rcases hmem with h1 | h1
        · exact hnot (h1 ▸ h)
        · exact hopen c (List.mem_cons_of_mem _ h) h1
      rw [broadcastLoop, if_neg hc, if_neg ha, ih (m.evict conn) hnd' hrest]
      simp only [Run.cons, broadcastTrace, List.map_cons, if_neg ha]
      have ha' : accepts conn = false := by simpa using ha
      congr 2
      · congr 1
        · simp only [ClientManager.evict, List.filter_filter]
          apply List.filter_congr
          intro x _
          by_cases hx : x = conn
          · subst hx; simp [ha']
          · simp [hx]
        · simp [ClientManager.evict, List.filter_cons, ha']

theorem sendCount_broadcastTrace (accepts : Client → Bool) (message : Message) (c : Client)
    (l : List Client) :
    sendCount c message (broadcastTrace accepts message l) =
      if accepts c then l.count c else 0 := by
  induction l with
  | nil => simp [sendCount, broadcastTrace]
  | cons x rest ih =>
    simp only [sendCount, broadcastTrace, List.map_cons] at ih ⊢
    by_cases hx : accepts x = true
    · by_cases hxc : x = c
      · subst hxc; simp [hx, List.count_cons] at ih ⊢; exact ih
      · by_cases hc : accepts c = true
        · simp [hx, hc, List.count_cons, hxc] at ih ⊢; exact ih
        · simp [hx, hc, List.count_cons, hxc] at ih ⊢; exact ih
    · by_cases hc : accepts c = true
      · have hxc : x ≠ c := fun h => hx (h ▸ hc)
        simp [hx, hc, List.count_cons, hxc] at ih ⊢; exact ih
      · simp [hx, hc, List.count_cons] at ih ⊢; exact ih

theorem sendsTo_broadcastTrace (accepts : Client → Bool) (message : Message) (c : Client)
    (l : List Client) :
    sendsTo c (broadcastTrace accepts message l) = if accepts c then l.count c else 0 := by
  induction l with
  | nil => simp [sendsTo, broadcastTrace]
  | cons x rest ih =>
    simp only [sendsTo, broadcastTrace, List.map_cons] at ih ⊢
    by_cases hx : accepts x = true
    · by_cases hxc : x = c
      · subst hxc; simp [hx, List.count_cons, List.filter_cons] at ih ⊢; exact ih
      · by_cases hc : accepts c = true
        · simp [hx, hc, List.count_cons, hxc, List.filter_cons] at ih ⊢; exact ih
        · simp [hx, hc, List.count_cons, hxc, List.filter_cons] at ih ⊢; exact ih
    · by_cases hc : accepts c = true
      · have hxc : x ≠ c := fun h => hx (h ▸ hc)
        simp [hx, hc, List.count_cons, hxc, List.filter_cons] at ih ⊢; exact ih
      · simp [hx, hc, List.count_cons, List.filter_cons] at ih ⊢; exact ih

theorem closeCount_broadcastTrace (accepts : Client → Bool) (message : Message) (c : Client)
    (l : List Client) :
    closeCount c (broadcastTrace accepts message l) = if accepts c then 0 else l.count c := by
  induction l with
  | nil => simp [closeCount, broadcastTrace]
  | cons x rest ih =>
    simp only [closeCount, broadcastTrace, List.map_cons] at ih ⊢
    by_cases hx : accepts x = true
    · by_cases hc : accepts c = true
      · simp [hx, hc, List.count_cons] at ih ⊢; exact ih
      · have hxc : x ≠ c := fun h => hc (h ▸ hx)
        simp [hx, hc, List.count_cons, hxc] at ih ⊢; exact ih
    · by_cases hxc : x = c
      · subst hxc; simp [hx, List.count_cons] at ih ⊢; exact ih
      · by_cases hc : accepts c = true
        · simp [hx, hc, List.count_cons, hxc] at ih ⊢; exact ih
        · simp [hx, hc, List.count_cons, hxc] at ih ⊢; exact ih

theorem mem_broadcastTrace_send (accepts : Client → Bool) (message : Message) (c : Client)
    (msg : Message) (l : List Client)
    (h : Effect.send c msg ∈ broadcastTrace accepts message l) :
    msg = message ∧ c ∈ l ∧ accepts c = true := by
  simp only [broadcastTrace, List.mem_map] at h
  obtain ⟨x, hx, he⟩ := h
  by_cases ha : accepts x = true
  · rw [if_pos ha] at he
    injection he with h1 h2
    subst h1
    exact ⟨h2.symm, hx, ha⟩
  · rw [if_neg ha] at he
    cases he

theorem rangeKeys_perm (rank : Client → Nat) (l : List Client) :
    (rangeKeys rank l).Perm l :=
  List.perm_insertionSort _ l

theorem mem_rangeKeys (rank : Client → Nat) (l : List Client) (c : Client) :
    c ∈ rangeKeys rank l ↔ c ∈ l :=
  (rangeKeys_perm rank l).mem_iff

theorem nodup_rangeKeys (rank : Client → Nat) (l : List Client) (h : l.Nodup) :
    (rangeKeys rank l).Nodup :=
  (rangeKeys_perm rank l).nodup_iff.mpr h

theorem count_rangeKeys (rank : Client → Nat) (l : List Client) (c : Client) :
    (rangeKeys rank l).count c = l.count c :=
  (rangeKeys_perm rank l).count_eq c

theorem rangeKeys_allReceive (l : List Client) : rangeKeys allReceive.rank l = l := by
  induction l with
  | nil => rfl
  | cons x rest ih =>
    show List.orderedInsert _ x (rangeKeys allReceive.rank rest) = x :: rest
    rw [ih]
    cases rest with
    | nil => rfl
    | cons y ys => simp [List.orderedInsert, allReceive]

theorem broadcast_eq (env : Env) (message : Message) (m : ClientManager) (hwf : m.WF) :
    m.broadcast env message =
      ⟨.done ⟨m.clients.filter env.accepts,
          ((rangeKeys env.rank m.clients).filter (fun x => !env.accepts x)).reverse ++
            m.closed⟩,
       broadcastTrace env.accepts message (rangeKeys env.rank m.clients)⟩ := by
  rw [ClientManager.broadcast, broadcastLoop_eq env.accepts message _ m
    (nodup_rangeKeys _ _ hwf.1) (fun c hc => hwf.2 c ((mem_rangeKeys _ _ c).mp hc))]
  congr 3
  apply List.filter_congr
  intro x hx
  simp [(mem_rangeKeys env.rank m.clients x).mpr hx]

theorem WF_broadcast (env : Env) (m : ClientManager) (hwf : m.WF) :
    ClientManager.WF ⟨m.clients.filter env.accepts,
      ((rangeKeys env.rank m.clients).filter (fun x => !env.accepts x)).reverse ++
        m.closed⟩ := by
  refine ⟨hwf.1.filter _, ?_⟩
  intro c hc hmem
  simp only [List.mem_filter] at hc
  simp only [List.mem_append, List.mem_reverse, List.mem_filter] at hmem
  rcases hmem with h | h
  · simp [hc.2] at h
  · exact hwf.2 c hc.1 h

/-- C1 (backpressure eviction). One broadcast pass over a well-formed hub state, whatever
the order in which the members are visited, runs to its end without blocking; its trace is,
for every member in turn, one send of the frame when the member accepts and one close when
it is saturated; nothing but the frame is sent; the members afterwards are exactly the
members that accepted, the saturated ones have a closed queue, and no later broadcast pass
sends to or closes an evicted connection. -/
theorem broadcast_backpressure_eviction (m : ClientManager) (hwf : m.WF) (env : Env)
    (frame : Message) :
    ∃ m1 : ClientManager,
      m.broadcast env frame =
        ⟨.done m1, broadcastTrace env.accepts frame (rangeKeys env.rank m.clients)⟩ ∧
      m1.WF ∧
      (∀ c, c ∈ m1.clients ↔ c ∈ m.clients ∧ env.accepts c = true) ∧
      (∀ c, c ∈ m1.closed ↔ c ∈ m.closed ∨ (c ∈ m.clients ∧ env.accepts c = false)) ∧
      (∀ c msg, Effect.send c msg ∈ (m.broadcast env frame).trace →
        msg = frame ∧ c ∈ m.clients ∧ env.accepts c = true) ∧
      (∀ c ∈ m.clients, env.accepts c = true →
        sendCount c frame (m.broadcast env frame).trace = 1 ∧
        sendsTo c (m.broadcast env frame).trace = 1 ∧
        closeCount c (m.broadcast env frame).trace = 0) ∧
      (∀ c ∈ m.clients, env.accepts c = false →
        sendsTo c (m.broadcast env frame).trace = 0 ∧
        closeCount c (m.broadcast env frame).trace = 1 ∧
        c ∈ m1.closed ∧ c ∉ m1.clients ∧
        ∀ (env2 : Env) (frame2 : Message),
          (∃ m2, (m1.broadcast env2 frame2).out = .done m2) ∧
          sendsTo c (m1.broadcast env2 frame2).trace = 0 ∧
          closeCount c (m1.broadcast env2 frame2).trace = 0) ∧
      (∀ c, c ∉ m.clients →
        sendsTo c (m.broadcast env frame).trace = 0 ∧
        closeCount c (m.broadcast env frame).trace = 0) := by
  have hwf1 := WF_broadcast env m hwf
  have hcnt : ∀ c, (rangeKeys env.rank m.clients).count c = m.clients.count c :=
    count_rangeKeys env.rank m.clients
  have hclosed : ∀ c, c ∈ ((rangeKeys env.rank m.clients).filter
      (fun x => !env.accepts x)).reverse ++ m.closed ↔
      c ∈ m.closed ∨ (c ∈ m.clients ∧ env.accepts c = false) := by
    intro c
    simp only [List.mem_append, List.mem_reverse, List.mem_filter, mem_rangeKeys,
      Bool.not_eq_true']
    constructor
    · rintro (h | h)
      · exact Or.inr h
      · exact Or.inl h
    · rintro (h | h)
      · exact Or.inr h
      · exact Or.inl h
  refine ⟨_, broadcast_eq env frame m hwf, hwf1, ?_, hclosed, ?_, ?_, ?_, ?_⟩
  · intro c; simp [List.mem_filter]
  · intro c msg h
    rw [broadcast_eq env frame m hwf] at h
    have := mem_broadcastTrace_send env.accepts frame c msg _ h
    exact ⟨this.1, (mem_rangeKeys _ _ c).mp this.2.1, this.2.2⟩
  · intro c hc ha
    rw [broadcast_eq env frame m hwf]
    simp only [sendCount_broadcastTrace, sendsTo_broadcastTrace, closeCount_broadcastTrace,
      ha, if_true, hcnt]
    exact ⟨List.count_eq_one_of_mem hwf.1 hc, List.count_eq_one_of_mem hwf.1 hc, trivial⟩
  · intro c hc ha
    rw [broadcast_eq env frame m hwf]
    simp only [sendsTo_broadcastTrace, closeCount_broadcastTrace, ha, hcnt]
    refine ⟨by simp, by simpa using List.count_eq_one_of_mem hwf.1 hc, ?_, ?_, ?_⟩
    · exact (hclosed c).mpr (Or.inr ⟨hc, ha⟩)
    · simp [List.mem_filter, ha]
    · intro env2 frame2
      rw [broadcast_eq env2 frame2 _ hwf1]
      have hnot : c ∉ m.clients.filter env.accepts := by simp [List.mem_filter, ha]
      refine ⟨⟨_, rfl⟩, ?_, ?_⟩
      · simp only [sendsTo_broadcastTrace, count_rangeKeys]
        split <;> simp [List.count_eq_zero_of_not_mem hnot]
      · simp only [closeCount_broadcastTrace, count_rangeKeys]
        split <;> simp [List.count_eq_zero_of_not_mem hnot]
  · intro c hc
    rw [broadcast_eq env frame m hwf]
    simp only [sendsTo_broadcastTrace, closeCount_broadcastTrace, hcnt]
    constructor <;> split <;> simp [List.count_eq_zero_of_not_mem hc]

theorem broadcast_backpressure_eviction_witness :
    (ClientManager.mk [⟨1, "a"⟩, ⟨2, "b"⟩, ⟨3, "c"⟩] [⟨4, "d"⟩]).WF ∧
    ∃ m1 : ClientManager,
      (ClientManager.mk [⟨1, "a"⟩, ⟨2, "b"⟩, ⟨3, "c"⟩] [⟨4, "d"⟩]).broadcast
          ⟨fun c => decide (c.addr ≠ 2), fun c => 3 - c.addr⟩ ⟨"a", "", "hi"⟩ =
        ⟨.done m1, [.send ⟨3, "c"⟩ ⟨"a", "", "hi"⟩, .close ⟨2, "b"⟩,
          .send ⟨1, "a"⟩ ⟨"a", "", "hi"⟩]⟩ ∧
      m1.WF ∧ (∀ c, c ∈ m1.clients ↔
        c ∈ [(⟨1, "a"⟩ : Client), ⟨2, "b"⟩, ⟨3, "c"⟩] ∧ decide (c.addr ≠ 2) = true) :=
  ⟨by decide,
    match broadcast_backpressure_eviction
      (ClientManager.mk [⟨1, "a"⟩, ⟨2, "b"⟩, ⟨3, "c"⟩] [⟨4, "d"⟩]) (by decide)
      ⟨fun c => decide (c.addr ≠ 2), fun c => 3 - c.addr⟩ ⟨"a", "", "hi"⟩ with
    | ⟨m1, h1, h2, h3, _⟩ => ⟨m1, h1, h2, h3⟩⟩

/-! ### The blocking announcement loop -/

theorem sendLoop_eq (accepts : Client → Bool) (message : Message) (ignore : Client)
    (m : ClientManager) :
    ∀ l : List Client, (∀ c ∈ l, c ≠ ignore → c ∉ m.closed) →
      sendLoop accepts message ignore m l =
        ⟨match (l.filter (fun x => x ≠ ignore)).find? (fun c => !accepts c) with
          | none => .done m
          | some c => .blocked m c,
         ((l.filter (fun x => x ≠ ignore)).takeWhile accepts).map
           (fun c => Effect.send c message)⟩ := by
  intro l
  induction l with
  | nil => intro _; simp [sendLoop]
  | cons conn rest ih =>
    intro hopen
    have hrest : ∀ c ∈ rest, c ≠ ignore → c ∉ m.closed :=
      fun c h => hopen c (List.mem_cons_of_mem _ h)
    by_cases hi : conn = ignore
    · rw [sendLoop, if_neg (by simpa using hi), ih hrest]
      simp [List.filter_cons, hi]
    · have hc : conn ∉ m.closed := hopen conn (List.mem_cons_self _ _) hi
      by_cases ha : accepts conn = true
      · rw [sendLoop, if_pos hi, if_neg hc, if_pos ha, ih hrest]
        simp [List.filter_cons, hi, ha, Run.cons, List.find?_cons, List.takeWhile_cons]
      · rw [sendLoop, if_pos hi, if_neg hc, if_neg ha]
        simp [List.filter_cons, hi, ha, List.find?_cons, List.takeWhile_cons]

theorem sendsTo_map_send (c : Client) (message : Message) (l : List Client) :
    sendsTo c (l.map (fun x => Effect.send x message)) = l.count c := by
  induction l with
  | nil => simp [sendsTo]
  | cons x rest ih =>
    simp only [sendsTo, List.map_cons] at ih ⊢
    by_cases hxc : x = c
    · subst hxc; simp [List.filter_cons, List.count_cons] at ih ⊢; exact ih
    · simp [List.filter_cons, List.count_cons, hxc] at ih ⊢; exact ih

theorem sendCount_map_send (c : Client) (message : Message) (l : List Client) :
    sendCount c message (l.map (fun x => Effect.send x message)) = l.count c := by
  induction l with
  | nil => simp [sendCount]
  | cons x rest ih =>
    simp only [sendCount, List.map_cons] at ih ⊢
    by_cases hxc : x = c
    · subst hxc; simp [List.count_cons] at ih ⊢; exact ih
    · simp [List.count_cons, hxc] at ih ⊢; exact ih

theorem closeCount_map_send (c : Client) (message : Message) (l : List Client) :
    closeCount c (l.map (fun x => Effect.send x message)) = 0 := by
  induction l with
  | nil => simp [closeCount]
  | cons x rest ih =>
    simp only [closeCount, List.map_cons] at ih ⊢
    simp [List.count_cons] at ih ⊢; exact ih

theorem takeWhile_eq_self_of_all (p : Client → Bool) (l : List Client)
    (h : ∀ c ∈ l, p c = true) : l.takeWhile p = l := by
  induction l with
  | nil => rfl
  | cons x rest ih =>
    rw [List.takeWhile_cons, if_pos (h x (List.mem_cons_self _ _)),
      ih (fun c hc => h c (List.mem_cons_of_mem _ hc))]

theorem find?_eq_none_of_all (p : Client → Bool) (l : List Client)
    (h : ∀ c ∈ l, p c = true) : l.find? (fun c => !p c) = none := by
  rw [List.find?_eq_none]
  intro c hc
  simp [h c hc]

theorem count_takeWhile_le (p : Client → Bool) (c : Client) (l : List Client) :
    (l.takeWhile p).count c ≤ l.count c :=
  (List.takeWhile_sublist p).count_le c

theorem mem_add (m : ClientManager) (conn c : Client) :
    c ∈ (m.add conn).clients ↔ c ∈ m.clients ∨ c = conn := by
  unfold ClientManager.add
  by_cases h : conn ∈ m.clients
  · simp only [h, if_true]
    constructor
    · exact Or.inl
    · rintro (h1 | h1)
      · exact h1
      · exact h1 ▸ h
  · simp [h]

theorem mem_others (env : Env) (m : ClientManager) (conn c : Client) :
    c ∈ others env m conn ↔ c ∈ m.clients ∧ c ≠ conn := by
  simp [others, List.mem_filter, mem_rangeKeys]

theorem mem_others_add (env : Env) (m : ClientManager) (conn c : Client) :
    c ∈ others env (m.add conn) conn ↔ c ∈ m.clients ∧ c ≠ conn := by
  rw [mem_others, mem_add]
  constructor
  · rintro ⟨h1 | h1, h2⟩
    · exact ⟨h1, h2⟩
    · exact absurd h1 h2
  · rintro ⟨h1, h2⟩
    exact ⟨Or.inl h1, h2⟩

theorem mem_others_evict (env : Env) (m : ClientManager) (conn c : Client) :
    c ∈ others env (m.evict conn) conn ↔ c ∈ m.clients ∧ c ≠ conn := by
  rw [mem_others]
  simp [ClientManager.evict, List.mem_filter]

theorem WF_add (m : ClientManager) (hwf : m.WF) (c : Client) (hc : c ∉ m.closed) :
    (m.add c).WF := by
  unfold ClientManager.add
  by_cases h : c ∈ m.clients
  · simpa [h] using hwf
  · simp only [h, if_false]
    refine ⟨?_, ?_⟩
    · exact List.Nodup.append hwf.1 (List.nodup_singleton c) (by simpa using h)
    · intro x hx
      simp only [List.mem_append, List.mem_singleton] at hx
      rcases hx with hx | hx
      · exact hwf.2 x hx
      · exact hx ▸ hc

theorem nodup_add (m : ClientManager) (h : m.clients.Nodup) (c : Client) :
    (m.add c).clients.Nodup := by
  unfold ClientManager.add
  by_cases hc : c ∈ m.clients
  · simpa [hc] using h
  · simp only [hc, if_false]
    exact List.Nodup.append h (List.nodup_singleton c) (by simpa using hc)

theorem WF_evict (m : ClientManager) (hwf : m.WF) (c : Client) : (m.evict c).WF := by
  refine ⟨hwf.1.filter _, ?_⟩
  intro x hx hmem
  simp only [ClientManager.evict, List.mem_filter, List.mem_cons] at hx hmem
  rcases hmem with h | h
  · simp [h] at hx
  · exact hwf.2 x hx.1 h

theorem nodup_others (env : Env) (m : ClientManager) (conn : Client) (h : m.clients.Nodup) :
    (others env m conn).Nodup :=
  (nodup_rangeKeys env.rank m.clients h).filter _

theorem register_eq (env : Env) (m : ClientManager) (hwf : m.WF) (conn : Client) :
    m.register env conn =
      ⟨match (others env (m.add conn) conn).find? (fun c => !env.accepts c) with
        | none => .done (m.add conn)
        | some c => .blocked (m.add conn) c,
       ((others env (m.add conn) conn).takeWhile env.accepts).map
         (fun c => Effect.send c joinMessage)⟩ := by
  have hopen : ∀ c ∈ rangeKeys env.rank (m.add conn).clients, c ≠ conn →
      c ∉ (m.add conn).closed := by
    intro c hc hne
    rcases (mem_add m conn c).mp ((mem_rangeKeys _ _ c).mp hc) with h | h
    · exact hwf.2 c h
    · exact absurd h hne
  rw [ClientManager.register, ClientManager.send, sendLoop_eq _ _ _ _ _ hopen]
  rfl

/-- C4, the claim as stated fails: with members `a` and `b` where the write loop of `a`
does not receive, the register of `c` does not send the join announcement to the other
member `b` (nor to `a`): the hub is parked on the send to `a`. -/
theorem register_saturated_counterexample :
    (⟨2, "b"⟩ : Client) ∈ (ClientManager.mk [⟨1, "a"⟩, ⟨2, "b"⟩] []).clients ∧
    (⟨2, "b"⟩ : Client) ≠ ⟨3, "c"⟩ ∧
    ((ClientManager.mk [⟨1, "a"⟩, ⟨2, "b"⟩] []).register
        ⟨fun x => decide (x.addr ≠ 1), fun x => x.addr⟩ ⟨3, "c"⟩).out =
      .blocked ⟨[⟨1, "a"⟩, ⟨2, "b"⟩, ⟨3, "c"⟩], []⟩ ⟨1, "a"⟩ ∧
    sendCount ⟨2, "b"⟩ ⟨"", "", "/A new socket has connected."⟩
      ((ClientManager.mk [⟨1, "a"⟩, ⟨2, "b"⟩] []).register
        ⟨fun x => decide (x.addr ≠ 1), fun x => x.addr⟩ ⟨3, "c"⟩).trace = 0 ∧
    ¬ (∀ x ∈ (ClientManager.mk [⟨1, "a"⟩, ⟨2, "b"⟩] []).clients, x ≠ (⟨3, "c"⟩ : Client) →
      sendCount x ⟨"", "", "/A new socket has connected."⟩
        ((ClientManager.mk [⟨1, "a"⟩, ⟨2, "b"⟩] []).register
          ⟨fun x => decide (x.addr ≠ 1), fun x => x.addr⟩ ⟨3, "c"⟩).trace = 1) := by
  decide

/-- C4 (no self-echo on join, amended). The register step on a well-formed hub state, whatever the
order in which the members are visited, never panics; it makes `conn` a member and closes
nothing; it sends nothing to `conn` itself; all it sends is the join announcement (the
frame with content `/A new socket has connected.` and no sender), at most
once to a member other than `conn`; and when the write loops of the other members receive,
the step runs to its end and each other member gets the join announcement exactly once.
When the write loop of some other member does not receive, the hub stays parked on the
send to such a member. -/
theorem register_no_self_echo (m : ClientManager) (hwf : m.WF) (conn : Client) (env : Env) :
    conn ∈ (m.add conn).clients ∧
    (∀ c, c ∈ (m.add conn).clients ↔ c ∈ m.clients ∨ c = conn) ∧
    (m.add conn).closed = m.closed ∧
    ((m.register env conn).out = .done (m.add conn) ∨
      ∃ c, (m.register env conn).out = .blocked (m.add conn) c ∧
        c ∈ m.clients ∧ c ≠ conn ∧ env.accepts c = false) ∧
    sendsTo conn (m.register env conn).trace = 0 ∧
    (∀ e ∈ (m.register env conn).trace,
      ∃ c, e = Effect.send c ⟨"", "", "/A new socket has connected."⟩ ∧ c ∈ m.clients ∧ c ≠ conn) ∧
    (∀ c, sendsTo c (m.register env conn).trace ≤ 1) ∧
    ((∀ c ∈ m.clients, c ≠ conn → env.accepts c = true) →
      (m.register env conn).out = .done (m.add conn) ∧
      ∀ c ∈ m.clients, c ≠ conn →
        sendCount c ⟨"", "", "/A new socket has connected."⟩ (m.register env conn).trace = 1 ∧
        sendsTo c (m.register env conn).trace = 1) := by
  have hjm : joinMessage = ⟨"", "", "/A new socket has connected."⟩ := rfl
  simp only [← hjm]
  rw [register_eq env m hwf conn]
  have hnd : (others env (m.add conn) conn).Nodup := nodup_others env _ conn (nodup_add m hwf.1 conn)
  have hmem := mem_others_add env m conn
  refine ⟨(mem_add m conn conn).mpr (Or.inr rfl), mem_add m conn, rfl, ?_, ?_, ?_, ?_, ?_⟩
  · cases hf : (others env (m.add conn) conn).find? (fun c => !env.accepts c) with
    | none => exact Or.inl rfl
    | some c =>
      right
      have h1 := (hmem c).mp (List.mem_of_find?_eq_some hf)
      have h2 := List.find?_some hf
      exact ⟨c, rfl, h1.1, h1.2, by simpa using h2⟩
  · rw [sendsTo_map_send]
    apply List.count_eq_zero_of_not_mem
    intro h
    exact ((hmem conn).mp ((List.takeWhile_sublist env.accepts).subset h)).2 rfl
  · intro e he
    simp only [List.mem_map] at he
    obtain ⟨c, hc, rfl⟩ := he
    have := (hmem c).mp ((List.takeWhile_sublist env.accepts).subset hc)
    exact ⟨c, rfl, this.1, this.2⟩
  · intro c
    rw [sendsTo_map_send]
    exact le_trans (count_takeWhile_le _ _ _) (List.nodup_iff_count_le_one.mp hnd c)
  · intro hall
    have hall' : ∀ c ∈ others env (m.add conn) conn, env.accepts c = true := by
      intro c hc
      exact hall c ((hmem c).mp hc).1 ((hmem c).mp hc).2
    rw [takeWhile_eq_self_of_all _ _ hall', find?_eq_none_of_all _ _ hall']
    refine ⟨rfl, ?_⟩
    intro c hc hne
    have hin : c ∈ others env (m.add conn) conn := (hmem c).mpr ⟨hc, hne⟩
    rw [sendCount_map_send, sendsTo_map_send]
    exact ⟨List.count_eq_one_of_mem hnd hin, List.count_eq_one_of_mem hnd hin⟩

theorem register_no_self_echo_witness :
    (ClientManager.mk [⟨1, "a"⟩, ⟨2, "b"⟩] []).WF ∧
    ((ClientManager.mk [⟨1, "a"⟩, ⟨2, "b"⟩] []).register allReceive ⟨3, "c"⟩).trace =
      [.send ⟨1, "a"⟩ ⟨"", "", "/A new socket has connected."⟩,
        .send ⟨2, "b"⟩ ⟨"", "", "/A new socket has connected."⟩] ∧
    sendsTo ⟨3, "c"⟩
      ((ClientManager.mk [⟨1, "a"⟩, ⟨2, "b"⟩] []).register allReceive ⟨3, "c"⟩).trace = 0 :=
  ⟨by decide, by decide,
    (register_no_self_echo (ClientManager.mk [⟨1, "a"⟩, ⟨2, "b"⟩] []) (by decide) ⟨3, "c"⟩
      allReceive).2.2.2.2.1⟩

/-! ### The unregister step -/

theorem sendLoop_state (accepts : Client → Bool) (message : Message) (ignore : Client)
    (m m1 : ClientManager) :
    ∀ l : List Client, (sendLoop accepts message ignore m l).out = .done m1 → m1 = m := by
  intro l
  induction l with
  | nil => intro h; simp only [sendLoop] at h; injection h with h; exact h.symm
  | cons conn rest ih =>
    intro h
    rw [sendLoop] at h
    split at h
    · split at h
      · cases h
      · split at h
        · exact ih h
        · cases h
    · exact ih h

theorem not_mem_evict (m : ClientManager) (conn : Client) : conn ∉ (m.evict conn).clients := by
  simp [ClientManager.evict, List.mem_filter]

theorem unregister_not_member (env : Env) (m : ClientManager) (conn : Client)
    (h : conn ∉ m.clients) : m.unregister env conn = ⟨.done m, []⟩ := by
  rw [ClientManager.unregister, if_neg h]

theorem unregister_done_not_member (env : Env) (m m1 : ClientManager)
    (conn : Client) (h : (m.unregister env conn).out = .done m1) : conn ∉ m1.clients := by
  rw [ClientManager.unregister] at h
  split at h
  · split at h
    · cases h
    · have := sendLoop_state _ _ _ _ _ _ h
      rw [this]
      exact not_mem_evict m conn
  · rename_i hc
    injection h with h
    rw [← h]
    exact hc

theorem unregister_eq (env : Env) (m : ClientManager) (hwf : m.WF) (conn : Client)
    (hc : conn ∈ m.clients) :
    m.unregister env conn =
      ⟨match (others env (m.evict conn) conn).find? (fun c => !env.accepts c) with
        | none => .done (m.evict conn)
        | some c => .blocked (m.evict conn) c,
       Effect.close conn :: ((others env (m.evict conn) conn).takeWhile env.accepts).map
         (fun c => Effect.send c leaveMessage)⟩ := by
  have hopen : ∀ c ∈ rangeKeys env.rank (m.evict conn).clients, c ≠ conn →
      c ∉ (m.evict conn).closed := by
    intro c h hne hmem
    have h := (mem_rangeKeys _ _ c).mp h
    simp only [ClientManager.evict, List.mem_filter, List.mem_cons] at h hmem
    rcases hmem with h1 | h1
    · exact hne h1
    · exact hwf.2 c h.1 h1
  rw [ClientManager.unregister, if_pos hc, if_neg (hwf.2 conn hc), ClientManager.send,
    sendLoop_eq _ _ _ _ _ hopen]
  rfl

/-- C2 (idempotent teardown). An unregister of a connection that is not a member runs to its
end, leaves the hub state as it is and performs no channel operation (no close, no send).
After an unregister of `conn` that ran to its end, `conn` is not a member, so a second
unregister of `conn` is such a no-op; handling the event twice in a row gives the same
outcome and the same trace as handling it once. -/
theorem unregister_idempotent (m : ClientManager) (conn : Client) (env env2 : Env) :
    (conn ∉ m.clients → m.unregister env conn = ⟨.done m, []⟩) ∧
    (∀ m1, (m.unregister env conn).out = .done m1 →
      m1.unregister env2 conn = ⟨.done m1, []⟩) ∧
    m.start [(env, .unregister conn), (env2, .unregister conn)] =
      m.start [(env, .unregister conn)] := by
  refine ⟨unregister_not_member env m conn, ?_, ?_⟩
  · intro m1 h
    exact unregister_not_member env2 m1 conn (unregister_done_not_member env m m1 conn h)
  · simp only [ClientManager.start, ClientManager.step]
    cases hr : m.unregister env conn with
    | mk out t =>
      cases out with
      | done m1 =>
        have h2 := unregister_not_member env2 m1 conn
          (unregister_done_not_member env m m1 conn (by rw [hr]))
        simp [h2]
      | blocked m1 c => rfl
      | panic => rfl

theorem unregister_idempotent_witness :
    (ClientManager.mk [⟨1, "a"⟩, ⟨2, "b"⟩] []).start
        [(allReceive, .unregister ⟨2, "b"⟩), (allReceive, .unregister ⟨2, "b"⟩)] =
      ⟨.done ⟨[⟨1, "a"⟩], [⟨2, "b"⟩]⟩, [.close ⟨2, "b"⟩, .send ⟨1, "a"⟩ leaveMessage]⟩ ∧
    (ClientManager.mk [⟨1, "a"⟩] [⟨2, "b"⟩]).unregister allReceive ⟨2, "b"⟩ =
      ⟨.done ⟨[⟨1, "a"⟩], [⟨2, "b"⟩]⟩, []⟩ :=
  ⟨by decide,
    (unregister_idempotent (ClientManager.mk [⟨1, "a"⟩, ⟨2, "b"⟩] []) ⟨2, "b"⟩
      allReceive allReceive).2.1 ⟨[⟨1, "a"⟩], [⟨2, "b"⟩]⟩ (by decide)⟩

/-! ### Runs of the hub loop -/

theorem start_append (m1 : ClientManager) (t : List Effect) :
    ∀ (es1 es2 : List (Env × Event)) (m : ClientManager),
      m.start es1 = ⟨.done m1, t⟩ →
      m.start (es1 ++ es2) = ⟨(m1.start es2).out, t ++ (m1.start es2).trace⟩ := by
  intro es1
  induction es1 generalizing t with
  | nil =>
    intro es2 m h
    simp only [ClientManager.start] at h
    injection h with h1 h2
    injection h1 with h1
    subst h1; subst h2
    simp
  | cons e rest ih =>
    intro es2 m h
    obtain ⟨accepts, ev⟩ := e
    simp only [List.cons_append, ClientManager.start] at h ⊢
    cases hr : m.step accepts ev with
    | mk out t0 =>
      cases out with
      | done m2 =>
        rw [hr] at h
        simp only at h ⊢
        cases hrest : m2.start rest with
        | mk out2 t2 =>
          rw [hrest] at h
          injection h with h1 h2
          simp only at h1 h2
          subst h1; subst h2
          have h3 := ih t2 es2 m2 hrest
          simp only [List.append_eq, h3, List.append_assoc]
      | blocked m2 c => rw [hr] at h; cases h
      | panic => rw [hr] at h; cases h

theorem closeCount_cons_close (c x : Client) (t : List Effect) :
    closeCount c (Effect.close x :: t) = closeCount c t + if x = c then 1 else 0 := by
  by_cases h : x = c
  · subst h; simp [closeCount]
  · simp [closeCount, List.count_cons, h]

theorem sendsTo_cons_close (c x : Client) (t : List Effect) :
    sendsTo c (Effect.close x :: t) = sendsTo c t := by
  simp [sendsTo, List.filter_cons]

theorem sendCount_cons_close (c x : Client) (msg : Message) (t : List Effect) :
    sendCount c msg (Effect.close x :: t) = sendCount c msg t := by
  simp [sendCount, List.count_cons]

theorem register_all_receive (env : Env) (m : ClientManager) (hwf : m.WF) (c : Client)
    (hall : ∀ x ∈ m.clients, x ≠ c → env.accepts x = true) :
    m.register env c =
      ⟨.done (m.add c), (others env (m.add c) c).map (fun x => Effect.send x joinMessage)⟩ := by
  have hall' : ∀ x ∈ others env (m.add c) c, env.accepts x = true := by
    intro x hx
    have := (mem_others_add env m c x).mp hx
    exact hall x this.1 this.2
  rw [register_eq env m hwf c, takeWhile_eq_self_of_all _ _ hall',
    find?_eq_none_of_all _ _ hall']

theorem unregister_all_receive (env : Env) (m : ClientManager) (hwf : m.WF) (c : Client)
    (hc : c ∈ m.clients) (hall : ∀ x ∈ m.clients, x ≠ c → env.accepts x = true) :
    m.unregister env c =
      ⟨.done (m.evict c),
        Effect.close c :: (others env (m.evict c) c).map
          (fun x => Effect.send x leaveMessage)⟩ := by
  have hall' : ∀ x ∈ others env (m.evict c) c, env.accepts x = true := by
    intro x hx
    have := (mem_others_evict env m c x).mp hx
    exact hall x this.1 this.2
  rw [unregister_eq env m hwf c hc, takeWhile_eq_self_of_all _ _ hall',
    find?_eq_none_of_all _ _ hall']

theorem start_registers :
    ∀ (cs : List Client) (evs : List (Env × Event)) (m : ClientManager),
      evs.map Prod.snd = cs.map Event.register →
      (m.clients ++ cs).Nodup → (∀ x ∈ m.clients ++ cs, x ∉ m.closed) →
      (∀ e ∈ evs, ∀ x ∈ m.clients ++ cs, e.1.accepts x = true) →
      ∃ t, m.start evs = ⟨.done ⟨m.clients ++ cs, m.closed⟩, t⟩ ∧
        ∀ e ∈ t, ∃ x, e = Effect.send x joinMessage := by
  intro cs
  induction cs with
  | nil =>
    intro evs m hev _ _ _
    have : evs = [] := by simpa using hev
    subst this
    exact ⟨[], by simp [ClientManager.start], by simp⟩
  | cons c rest ih =>
    intro evs m hev hnd hopen hacc
    cases evs with
    | nil => simp at hev
    | cons e evs1 =>
      obtain ⟨env, ev⟩ := e
      simp only [List.map_cons, List.cons.injEq] at hev
      obtain ⟨hev0, hev1⟩ := hev
      subst hev0
      have hwf : m.WF :=
        ⟨(List.nodup_append.mp hnd).1, fun x hx => hopen x (List.mem_append_left _ hx)⟩
      have hcm : c ∉ m.clients := by
        intro h
        exact (List.nodup_append.mp hnd).2.2 h (List.mem_cons_self _ _)
      have hadd : m.add c = ⟨m.clients ++ [c], m.closed⟩ := by
        simp [ClientManager.add, hcm]
      have hreg := register_all_receive env m hwf c
        (fun x hx _ => hacc (env, .register c) (List.mem_cons_self _ _) x
          (List.mem_append_left _ hx))
      have heq : (m.clients ++ [c]) ++ rest = m.clients ++ c :: rest := by simp
      obtain ⟨t, ht, hte⟩ := ih evs1 ⟨m.clients ++ [c], m.closed⟩ hev1
        (by simpa using hnd) (by simpa using hopen)
        (fun e he x hx => hacc e (List.mem_cons_of_mem _ he) x (by simpa using hx))
      refine ⟨(others env (m.add c) c).map (fun x => Effect.send x joinMessage) ++ t,
        ?_, ?_⟩
      · simp only [ClientManager.start, ClientManager.step, hreg, hadd, ht, heq]
      · intro e he
        rcases List.mem_append.mp he with h | h
        · obtain ⟨x, _, hx⟩ := List.mem_map.mp h
          exact ⟨x, hx.symm⟩
        · exact hte e h

/-- C3 (join/leave visibility). From the initial hub, the register events of `N` distinct
connections whose write loops receive all run to their end, close nothing and leave exactly
these connections as members.  The unregister of a member `c` that follows runs to its end:
it removes `c`, closes the queue of `c` exactly once (and no other queue), sends the leave
announcement, the frame with content `/A socket has disconnected.` and no sender, exactly
once to every remaining member and sends nothing to `c`.  This holds
for every order in which the members are visited in each step. -/
theorem join_leave_visibility (cs : List Client) (hnd : cs.Nodup) (c : Client) (hc : c ∈ cs)
    (evs : List (Env × Event)) (hev : evs.map Prod.snd = cs.map Event.register)
    (hacc : ∀ e ∈ evs, ∀ x ∈ cs, e.1.accepts x = true)
    (env : Env) (hacc2 : ∀ x ∈ cs, env.accepts x = true) :
    ∃ t u : List Effect,
      manager.start evs = ⟨.done ⟨cs, []⟩, t⟩ ∧
      (∀ x, closeCount x t = 0) ∧
      manager.start (evs ++ [(env, Event.unregister c)]) =
        ⟨.done ⟨cs.filter (fun x => x ≠ c), [c]⟩, t ++ u⟩ ∧
      u = Effect.close c :: (rangeKeys env.rank (cs.filter (fun x => x ≠ c))).map
        (fun x => Effect.send x ⟨"", "", "/A socket has disconnected."⟩) ∧
      closeCount c u = 1 ∧ sendsTo c u = 0 ∧
      ∀ x ∈ cs, x ≠ c →
        sendCount x ⟨"", "", "/A socket has disconnected."⟩ u = 1 ∧ sendsTo x u = 1 ∧ closeCount x u = 0 := by
  have hlm : leaveMessage = ⟨"", "", "/A socket has disconnected."⟩ := rfl
  simp only [← hlm]
  obtain ⟨t, ht, hte⟩ := start_registers cs evs manager hev (by simpa [manager] using hnd)
    (by simp [manager]) (by simpa [manager] using hacc)
  have ht' : manager.start evs = ⟨.done ⟨cs, []⟩, t⟩ := by simpa [manager] using ht
  have hwf : (ClientManager.mk cs []).WF := ⟨hnd, by simp⟩
  have hoth : others env ((ClientManager.mk cs []).evict c) c =
      rangeKeys env.rank (cs.filter (fun x => x ≠ c)) := by
    unfold others
    apply List.filter_eq_self.mpr
    intro x hx
    have := (mem_rangeKeys _ _ x).mp hx
    simp only [ClientManager.evict, List.mem_filter] at this
    exact this.2
  have hu : (ClientManager.mk cs []).unregister env c =
      ⟨.done ⟨cs.filter (fun x => x ≠ c), [c]⟩,
        Effect.close c :: (rangeKeys env.rank (cs.filter (fun x => x ≠ c))).map
          (fun x => Effect.send x leaveMessage)⟩ := by
    rw [unregister_all_receive env _ hwf c hc (fun x hx _ => hacc2 x hx), hoth]
    rfl
  have hndf : (cs.filter (fun x => x ≠ c)).Nodup := hnd.filter _
  refine ⟨t, _, ht', ?_, ?_, rfl, ?_, ?_, ?_⟩
  · intro x
    apply List.count_eq_zero_of_not_mem
    intro hx
    obtain ⟨y, hy⟩ := hte _ hx
    cases hy
  · rw [start_append _ _ _ _ _ ht']
    simp [ClientManager.start, ClientManager.step, hu]
  · rw [closeCount_cons_close, closeCount_map_send]; simp
  · rw [sendsTo_cons_close, sendsTo_map_send, count_rangeKeys]
    apply List.count_eq_zero_of_not_mem
    simp [List.mem_filter]
  · intro x hx hne
    have hmem : x ∈ cs.filter (fun x => x ≠ c) := by simp [List.mem_filter, hx, hne]
    rw [sendCount_cons_close, sendsTo_cons_close, closeCount_cons_close, sendCount_map_send,
      sendsTo_map_send, closeCount_map_send, count_rangeKeys]
    refine ⟨List.count_eq_one_of_mem hndf hmem, List.count_eq_one_of_mem hndf hmem, ?_⟩
    simp [Ne.symm hne]

theorem join_leave_visibility_witness :
    [(⟨1, "a"⟩ : Client), ⟨2, "b"⟩, ⟨3, "c"⟩].Nodup ∧
    ∃ t u : List Effect,
      manager.start ([(allReceive, Event.register ⟨1, "a"⟩),
          (allReceive, Event.register ⟨2, "b"⟩), (allReceive, Event.register ⟨3, "c"⟩)] ++
          [(allReceive, Event.unregister ⟨3, "c"⟩)]) =
        ⟨.done ⟨[⟨1, "a"⟩, ⟨2, "b"⟩], [⟨3, "c"⟩]⟩, t ++ u⟩ ∧
      u = [.close ⟨3, "c"⟩, .send ⟨1, "a"⟩ ⟨"", "", "/A socket has disconnected."⟩,
        .send ⟨2, "b"⟩ ⟨"", "", "/A socket has disconnected."⟩] :=
  ⟨by decide,
    match join_leave_visibility [⟨1, "a"⟩, ⟨2, "b"⟩, ⟨3, "c"⟩] (by decide) ⟨3, "c"⟩
      (by decide) [(allReceive, Event.register ⟨1, "a"⟩),
          (allReceive, Event.register ⟨2, "b"⟩), (allReceive, Event.register ⟨3, "c"⟩)]
      rfl (by decide) allReceive (fun _ _ => rfl) with
    | ⟨t, u, _, _, h3, h4, _⟩ => ⟨t, u, h3, h4⟩⟩

/-- C7 (announcements and saturation). With members `a` and `b` where the write loop of `a`
does not receive: the register of `c` leaves the hub parked on the send to `a`, with `a`
still a member, its queue not closed and nothing delivered to `b`; the unregister of `b`
closes the queue of `b` and then parks in the same way.  A broadcast pass in the same
situation runs to its end, evicts `a` and delivers to `b`. -/
theorem announcement_blocks_on_saturated_member :
    (ClientManager.mk [⟨1, "a"⟩, ⟨2, "b"⟩] []).register
        ⟨fun x => decide (x.addr ≠ 1), fun x => x.addr⟩ ⟨3, "c"⟩ =
      ⟨.blocked ⟨[⟨1, "a"⟩, ⟨2, "b"⟩, ⟨3, "c"⟩], []⟩ ⟨1, "a"⟩, []⟩ ∧
    (ClientManager.mk [⟨1, "a"⟩, ⟨2, "b"⟩, ⟨3, "c"⟩] []).unregister
        ⟨fun x => decide (x.addr ≠ 1), fun x => x.addr⟩ ⟨2, "b"⟩ =
      ⟨.blocked ⟨[⟨1, "a"⟩, ⟨3, "c"⟩], [⟨2, "b"⟩]⟩ ⟨1, "a"⟩, [.close ⟨2, "b"⟩]⟩ ∧
    (ClientManager.mk [⟨1, "a"⟩, ⟨2, "b"⟩] []).broadcast
        ⟨fun x => decide (x.addr ≠ 1), fun x => x.addr⟩ joinMessage =
      ⟨.done ⟨[⟨2, "b"⟩], [⟨1, "a"⟩]⟩, [.close ⟨1, "a"⟩, .send ⟨2, "b"⟩ joinMessage]⟩ := by
  decide

/-! ### The open-queue invariant -/

theorem traceOk_map_send (closed : List Client) (message : Message) (l : List Client)
    (h : ∀ x ∈ l, x ∉ closed) :
    traceOk closed (l.map (fun x => Effect.send x message)) = true := by
  induction l with
  | nil => rfl
  | cons x rest ih =>
    simp only [List.map_cons, traceOk, Bool.and_eq_true, Bool.not_eq_true', decide_eq_false_iff_not]
    exact ⟨h x (List.mem_cons_self _ _), ih (fun y hy => h y (List.mem_cons_of_mem _ hy))⟩

theorem closedAfter_map_send (closed : List Client) (message : Message) (l : List Client) :
    closedAfter closed (l.map (fun x => Effect.send x message)) = closed := by
  induction l with
  | nil => rfl
  | cons x rest ih => simpa [closedAfter] using ih

theorem traceOk_broadcastTrace (accepts : Client → Bool) (message : Message) :
    ∀ (l : List Client) (closed : List Client), l.Nodup → (∀ x ∈ l, x ∉ closed) →
      traceOk closed (broadcastTrace accepts message l) = true := by
  intro l
  induction l with
  | nil => intro _ _ _; rfl
  | cons x rest ih =>
    intro closed hnd hopen
    have hx : x ∉ closed := hopen x (List.mem_cons_self _ _)
    have hnd' := (List.nodup_cons.mp hnd).2
    have hnot := (List.nodup_cons.mp hnd).1
    have hrest : ∀ y ∈ rest, y ∉ closed := fun y hy => hopen y (List.mem_cons_of_mem _ hy)
    simp only [broadcastTrace, List.map_cons] at ih ⊢
    by_cases ha : accepts x = true
    · simp only [ha, if_true, traceOk, Bool.and_eq_true, Bool.not_eq_true',
        decide_eq_false_iff_not]
      exact ⟨hx, ih closed hnd' hrest⟩
    · simp only [ha, traceOk, Bool.and_eq_true, Bool.not_eq_true',
        decide_eq_false_iff_not]
      refine ⟨hx, ih (x :: closed) hnd' ?_⟩
      intro y hy hmem
      rcases List.mem_cons.mp hmem with h | h
      · exact hnot (h ▸ hy)
      · exact hrest y hy h

theorem closedAfter_broadcastTrace (accepts : Client → Bool) (message : Message) :
    ∀ (l : List Client) (closed : List Client),
      closedAfter closed (broadcastTrace accepts message l) =
        (l.filter (fun x => !accepts x)).reverse ++ closed := by
  intro l
  induction l with
  | nil => intro _; rfl
  | cons x rest ih =>
    intro closed
    simp only [broadcastTrace, List.map_cons] at ih ⊢
    by_cases ha : accepts x = true
    · simp [ha, closedAfter, ih closed, List.filter_cons]
    · simp [ha, closedAfter, ih (x :: closed), List.filter_cons]

theorem traceOk_append (t1 t2 : List Effect) :
    ∀ closed : List Client,
      traceOk closed (t1 ++ t2) = (traceOk closed t1 && traceOk (closedAfter closed t1) t2) := by
  induction t1 with
  | nil => intro closed; simp [traceOk, closedAfter]
  | cons e rest ih =>
    intro closed
    cases e with
    | send c msg => simp [traceOk, closedAfter, ih closed, Bool.and_assoc]
    | close c => simp [traceOk, closedAfter, ih (c :: closed), Bool.and_assoc]

theorem closedAfter_append (t1 t2 : List Effect) :
    ∀ closed : List Client,
      closedAfter closed (t1 ++ t2) = closedAfter (closedAfter closed t1) t2 := by
  induction t1 with
  | nil => intro closed; rfl
  | cons e rest ih =>
    intro closed
    cases e with
    | send c msg => simpa [closedAfter] using ih closed
    | close c => simpa [closedAfter] using ih (c :: closed)

theorem step_safe (env : Env) (m : ClientManager) (hwf : m.WF) (ev : Event)
    (hadm : admissible m ev) :
    (m.step env ev).out ≠ .panic ∧
    traceOk m.closed (m.step env ev).trace = true ∧
    ∀ m1, (m.step env ev).out.state = some m1 →
      m1.WF ∧ m1.closed = closedAfter m.closed (m.step env ev).trace ∧
      (∀ x ∈ m1.clients, x ∈ m.clients ∨ ev = .register x) ∧
      (∀ x ∈ m1.closed, x ∈ m.closed ∨ x ∈ m.clients) := by
  cases ev with
  | register c =>
    have hsub : ∀ x ∈ (others env (m.add c) c).takeWhile env.accepts, x ∉ m.closed := by
      intro x hx
      have := (mem_others_add env m c x).mp ((List.takeWhile_sublist env.accepts).subset hx)
      exact hwf.2 x this.1
    have hst : ∀ m1, m1 = m.add c →
        m1.WF ∧ m1.closed = m.closed ∧
        (∀ x ∈ m1.clients, x ∈ m.clients ∨ Event.register c = .register x) ∧
        (∀ x ∈ m1.closed, x ∈ m.closed ∨ x ∈ m.clients) := by
      intro m1 h1
      subst h1
      refine ⟨WF_add m hwf c hadm.2, rfl, ?_, fun x hx => Or.inl hx⟩
      intro x hx
      rcases (mem_add m c x).mp hx with h | h
      · exact Or.inl h
      · exact Or.inr (by rw [h])
    simp only [ClientManager.step, register_eq env m hwf c, closedAfter_map_send]
    refine ⟨?_, traceOk_map_send _ _ _ hsub, ?_⟩
    · split <;> simp
    · intro m1 h1
      apply hst
      split at h1 <;> simp only [Outcome.state, Option.some.injEq] at h1 <;> exact h1.symm
  | unregister c =>
    by_cases hc : c ∈ m.clients
    · have hsub : ∀ x ∈ (others env (m.evict c) c).takeWhile env.accepts,
          x ∉ c :: m.closed := by
        intro x hx hmem
        have := (mem_others_evict env m c x).mp
          ((List.takeWhile_sublist env.accepts).subset hx)
        rcases List.mem_cons.mp hmem with h | h
        · exact this.2 h
        · exact hwf.2 x this.1 h
      have hst : ∀ m1, m1 = m.evict c →
          m1.WF ∧ m1.closed = c :: m.closed ∧
          (∀ x ∈ m1.clients, x ∈ m.clients ∨ Event.unregister c = .register x) ∧
          (∀ x ∈ m1.closed, x ∈ m.closed ∨ x ∈ m.clients) := by
        intro m1 h1
        subst h1
        refine ⟨WF_evict m hwf c, rfl, ?_, ?_⟩
        · intro x hx
          exact Or.inl (List.mem_filter.mp hx).1
        · intro x hx
          rcases List.mem_cons.mp hx with h | h
          · exact Or.inr (h ▸ hc)
          · exact Or.inl h
      simp only [ClientManager.step, unregister_eq env m hwf c hc, closedAfter,
        closedAfter_map_send, traceOk, Bool.and_eq_true, Bool.not_eq_true',
        decide_eq_false_iff_not]
      refine ⟨?_, ⟨hwf.2 c hc, traceOk_map_send _ _ _ hsub⟩, ?_⟩
      · split <;> simp
      · intro m1 h1
        apply hst
        split at h1 <;> simp only [Outcome.state, Option.some.injEq] at h1 <;> exact h1.symm
    · simp only [ClientManager.step, unregister_not_member env m c hc, traceOk,
        closedAfter, Outcome.state, Option.some.injEq]
      refine ⟨by simp, trivial, ?_⟩
      intro m1 h1
      subst h1
      exact ⟨hwf, rfl, fun x hx => Or.inl hx, fun x hx => Or.inl hx⟩
  | broadcast message =>
    simp only [ClientManager.step, broadcast_eq env message m hwf,
      closedAfter_broadcastTrace, Outcome.state, Option.some.injEq]
    refine ⟨by simp, traceOk_broadcastTrace env.accepts message _ _
      (nodup_rangeKeys _ _ hwf.1) (fun x hx => hwf.2 x ((mem_rangeKeys _ _ x).mp hx)), ?_⟩
    intro m1 h1
    subst h1
    refine ⟨WF_broadcast env m hwf, rfl, ?_, ?_⟩
    · intro x hx
      exact Or.inl (List.mem_filter.mp hx).1
    · intro x hx
      simp only [List.mem_append, List.mem_reverse, List.mem_filter, mem_rangeKeys] at hx
      rcases hx with h | h
      · exact Or.inr h.1
      · exact Or.inl h

theorem registered_cons (env : Env) (ev : Event) (rest : List (Env × Event)) :
    registered ((env, ev) :: rest) =
      (match ev with
        | .register c => [c]
        | _ => []) ++ registered rest := by
  cases ev <;> rfl

theorem start_safe :
    ∀ (evs : List (Env × Event)) (m : ClientManager), m.WF →
      (registered evs).Nodup → (∀ c ∈ registered evs, c ∉ m.clients ∧ c ∉ m.closed) →
      (m.start evs).out ≠ .panic ∧
      traceOk m.closed (m.start evs).trace = true ∧
      ∀ m1, (m.start evs).out.state = some m1 →
        m1.WF ∧ m1.closed = closedAfter m.closed (m.start evs).trace := by
  intro evs
  induction evs with
  | nil =>
    intro m hwf _ _
    simp only [ClientManager.start, traceOk, closedAfter, Outcome.state, Option.some.injEq]
    refine ⟨by simp, trivial, ?_⟩
    intro m1 h1
    subst h1
    exact ⟨hwf, rfl⟩
  | cons e rest ih =>
    intro m hwf hnd hfresh
    obtain ⟨env, ev⟩ := e
    have hadm : admissible m ev := by
      cases ev with
      | register c => exact hfresh c (by simp [registered])
      | unregister c => trivial
      | broadcast msg => trivial
    obtain ⟨hnp, htr, hst⟩ := step_safe env m hwf ev hadm
    rw [registered_cons] at hnd hfresh
    have hnd' : (registered rest).Nodup := (List.nodup_append.mp hnd).2.1
    simp only [ClientManager.start]
    cases hr : m.step env ev with
    | mk out t0 =>
      rw [hr] at hnp htr hst
      simp only at hnp htr hst
      cases out with
      | done m1 =>
        obtain ⟨hwf1, hcl1, hmem1, hclosed1⟩ := hst m1 rfl
        have hfresh1 : ∀ c ∈ registered rest, c ∉ m1.clients ∧ c ∉ m1.closed := by
          intro c hc
          have hf := hfresh c (List.mem_append_right _ hc)
          refine ⟨?_, ?_⟩
          · intro h
            rcases hmem1 c h with h2 | h2
            · exact hf.1 h2
            · subst h2
              exact (List.nodup_append.mp hnd).2.2 (by simp) hc
          · intro h
            rcases hclosed1 c h with h2 | h2
            · exact hf.2 h2
            · exact hf.1 h2
        obtain ⟨hnp2, htr2, hst2⟩ := ih m1 hwf1 hnd' hfresh1
        simp only
        refine ⟨hnp2, ?_, ?_⟩
        · rw [traceOk_append, htr, ← hcl1, htr2]; rfl
        · intro m2 h2
          obtain ⟨hwf2, hcl2⟩ := hst2 m2 h2
          exact ⟨hwf2, by rw [closedAfter_append, ← hcl1, hcl2]⟩
      | blocked m1 c =>
        simp only
        exact ⟨by simp, htr, fun m2 h2 => ⟨(hst m2 h2).1, (hst m2 h2).2.1⟩⟩
      | panic => exact absurd rfl hnp

/-- C10 (open-queue invariant). Run the hub loop from the initial hub on any sequence of
register, unregister and broadcast events in which no connection is registered twice,
with any readiness of the write loops and any order of visiting the members.  The run
never panics; replaying its trace, every send and every close hits a channel that is open
at that moment; in the state it reaches the members are distinct, every member has an open
queue, and the closed queues are those the trace closed.  No further event panics there,
and an unregister of a connection whose queue is closed (evicted by backpressure or
unregistered before) is a no-op. -/
theorem open_queue_invariant (evs : List (Env × Event)) (hnd : (registered evs).Nodup) :
    (manager.start evs).out ≠ .panic ∧
    traceOk [] (manager.start evs).trace = true ∧
    ∀ m, (manager.start evs).out.state = some m →
      m.clients.Nodup ∧ (∀ c ∈ m.clients, c ∉ m.closed) ∧
      m.closed = closedAfter [] (manager.start evs).trace ∧
      (∀ (env : Env) (ev : Event), admissible m ev → (m.step env ev).out ≠ .panic) ∧
      ∀ (env : Env) (c : Client), c ∈ m.closed → m.unregister env c = ⟨.done m, []⟩ := by
  have hwf0 : manager.WF := by decide
  obtain ⟨h1, h2, h3⟩ := start_safe evs manager hwf0 hnd (by simp [manager])
  refine ⟨h1, h2, ?_⟩
  intro m hm
  obtain ⟨hwf, hcl⟩ := h3 m hm
  refine ⟨hwf.1, hwf.2, hcl, ?_, ?_⟩
  · intro env ev hadm
    exact (step_safe env m hwf ev hadm).1
  · intro env c hc
    exact unregister_not_member env m c (fun h => hwf.2 c h hc)

theorem open_queue_invariant_witness :
    (registered [(allReceive, Event.register ⟨1, "a"⟩),
      (allReceive, Event.register ⟨2, "b"⟩),
      (⟨fun x => decide (x.addr ≠ 2), fun x => x.addr⟩, Event.broadcast ⟨"a", "", "hi"⟩),
      (allReceive, Event.unregister ⟨2, "b"⟩)]).Nodup ∧
    manager.start [(allReceive, Event.register ⟨1, "a"⟩),
      (allReceive, Event.register ⟨2, "b"⟩),
      (⟨fun x => decide (x.addr ≠ 2), fun x => x.addr⟩, Event.broadcast ⟨"a", "", "hi"⟩),
      (allReceive, Event.unregister ⟨2, "b"⟩)] =
      ⟨.done ⟨[⟨1, "a"⟩], [⟨2, "b"⟩]⟩,
        [.send ⟨1, "a"⟩ joinMessage, .send ⟨1, "a"⟩ ⟨"a", "", "hi"⟩, .close ⟨2, "b"⟩]⟩ ∧
    traceOk [] (manager.start [(allReceive, Event.register ⟨1, "a"⟩),
      (allReceive, Event.register ⟨2, "b"⟩),
      (⟨fun x => decide (x.addr ≠ 2), fun x => x.addr⟩, Event.broadcast ⟨"a", "", "hi"⟩),
      (allReceive, Event.unregister ⟨2, "b"⟩)]).trace = true :=
  ⟨by decide, by decide,
    (open_queue_invariant [(allReceive, Event.register ⟨1, "a"⟩),
      (allReceive, Event.register ⟨2, "b"⟩),
      (⟨fun x => decide (x.addr ≠ 2), fun x => x.addr⟩, Event.broadcast ⟨"a", "", "hi"⟩),
      (allReceive, Event.unregister ⟨2, "b"⟩)] (by decide)).2.1⟩

/-! ### The read loop -/

theorem ofNat_add_ne_slash (k : Nat) (h1 : 65 ≤ k) (h2 : k ≤ 90) :
    Char.ofNat (k + 32) ≠ '/' := by
  interval_cases k <;> decide

theorem unicodeToLower_eq_slash (caseTable : Char → Char)
    (htbl : ∀ r : Char, 127 < r.toNat → caseTable r ≠ '/') (r : Char) :
    unicodeToLower caseTable r = '/' ↔ r = '/' := by
  unfold unicodeToLower
  by_cases h1 : r.toNat ≤ 127
  · rw [if_pos h1]
    by_cases h2 : 65 ≤ r.toNat ∧ r.toNat ≤ 90
    · rw [if_pos h2]
      constructor
      · intro h; exact absurd h (ofNat_add_ne_slash _ h2.1 h2.2)
      · intro h
        subst h
        exact absurd h2.1 (by decide)
    · rw [if_neg h2]
  · rw [if_neg h1]
    constructor
    · intro h; exact absurd h (htbl r (by omega))
    · intro h
      subst h
      exact absurd (show ('/' : Char).toNat ≤ 127 by decide) h1

theorem hasPrefix_toLower (caseTable : Char → Char)
    (htbl : ∀ r : Char, 127 < r.toNat → caseTable r ≠ '/') (s : String) :
    HasPrefix (ToLower caseTable s) "/" = beginsWithSlash s := by
  unfold HasPrefix ToLower beginsWithSlash
  cases h : s.data with
  | nil => rfl
  | cons ch rest =>
    have := unicodeToLower_eq_slash caseTable htbl ch
    show List.isPrefixOf ['/'] (unicodeToLower caseTable ch :: rest.map _) = decide (ch = '/')
    simp only [List.isPrefixOf, Bool.and_true]
    by_cases hc : ch = '/'
    · have h2 := this.mpr hc
      subst hc
      simp [h2]
    · have h2 : unicodeToLower caseTable ch ≠ '/' := fun h => hc (this.mp h)
      simp [hc, Ne.symm h2]

theorem readLoop_broadcastContents (caseTable : Char → Char) (c : Client) :
    ∀ inputs : List Inbound,
      broadcastContents (readLoop caseTable c inputs).1 =
        (decoded (handled inputs)).map (fun m => m.Content) := by
  intro inputs
  induction inputs with
  | nil => rfl
  | cons i rest ih =>
    cases i with
    | readError => rfl
    | invalid => simpa [readLoop, handled, decoded, broadcastContents] using ih
    | frame incoming =>
      simp only [readLoop, handled, decoded, List.map_cons, readFrame]
      split <;> simp [broadcastContents, ih]

theorem readLoop_askGPTInputs (caseTable : Char → Char)
    (htbl : ∀ r : Char, 127 < r.toNat → caseTable r ≠ '/') (c : Client) :
    ∀ inputs : List Inbound,
      askGPTInputs (readLoop caseTable c inputs).1 =
        ((decoded (handled inputs)).map (fun m => m.Content)).filter
          (fun s => !beginsWithSlash s) := by
  intro inputs
  induction inputs with
  | nil => rfl
  | cons i rest ih =>
    cases i with
    | readError => rfl
    | invalid => simpa [readLoop, handled, decoded, askGPTInputs] using ih
    | frame incoming =>
      simp only [readLoop, handled, decoded, List.map_cons, readFrame,
        hasPrefix_toLower caseTable htbl]
      by_cases hs : beginsWithSlash incoming.Content = true
      · simp [hs, askGPTInputs, ih, List.filter_cons]
      · simp [hs, askGPTInputs, ih, List.filter_cons]

theorem broadcastContents_append_teardown (c : Client) (as : List Action) :
    broadcastContents (as ++ [.unregister c, .closeSocket c]) = broadcastContents as := by
  induction as with
  | nil => rfl
  | cons a rest ih => cases a <;> simp [broadcastContents, ih]

theorem askGPTInputs_append_teardown (c : Client) (as : List Action) :
    askGPTInputs (as ++ [.unregister c, .closeSocket c]) = askGPTInputs as := by
  induction as with
  | nil => rfl
  | cons a rest ih => cases a <;> simp [askGPTInputs, ih]

/-- C6 (control-directive exemption). Provided the case table of the Go library maps no
rune above the ASCII range to `/`: one turn of the read loop on a decoded frame submits
one broadcast event carrying the content as it came and, after it, one `askGPT` call with
that content exactly when the content does not begin with `/`; over a whole run the
broadcast contents are the contents of the decoded frames read before the first read error,
in order, and the `askGPT` inputs are those among them that do not begin with `/`.
For every case table, `/help` triggers no call and `hello` triggers one. -/
theorem control_directive_exemption (caseTable : Char → Char)
    (htbl : ∀ r : Char, 127 < r.toNat → caseTable r ≠ '/') (c : Client) :
    (∀ incoming : Message,
      readFrame caseTable c incoming =
        if beginsWithSlash incoming.Content then
          [.broadcast ⟨if incoming.Sender = "" then c.id else incoming.Sender, "",
            incoming.Content⟩]
        else
          [.broadcast ⟨if incoming.Sender = "" then c.id else incoming.Sender, "",
            incoming.Content⟩,
           .askGPT incoming.Content (if incoming.Sender = "" then c.id else incoming.Sender)]) ∧
    (∀ s : String, HasPrefix (ToLower caseTable s) "/" = beginsWithSlash s) ∧
    (∀ inputs : List Inbound,
      broadcastContents (c.read caseTable inputs) =
        (decoded (handled inputs)).map (fun m => m.Content) ∧
      askGPTInputs (c.read caseTable inputs) =
        ((decoded (handled inputs)).map (fun m => m.Content)).filter
          (fun s => !beginsWithSlash s)) ∧
    (∀ tbl : Char → Char, readFrame tbl c ⟨"", "", "/help"⟩ =
      [.broadcast ⟨c.id, "", "/help"⟩]) ∧
    (∀ tbl : Char → Char, readFrame tbl c ⟨"", "", "hello"⟩ =
      [.broadcast ⟨c.id, "", "hello"⟩, .askGPT "hello" c.id]) := by
  refine ⟨?_, hasPrefix_toLower caseTable htbl, ?_, ?_, ?_⟩
  · intro incoming
    simp only [readFrame, hasPrefix_toLower caseTable htbl]
    by_cases hs : beginsWithSlash incoming.Content = true
    · simp [hs]
    · simp [hs]
  · intro inputs
    unfold Client.read
    simp only
    split
    · rw [broadcastContents_append_teardown, askGPTInputs_append_teardown]
      exact ⟨readLoop_broadcastContents caseTable c inputs,
        readLoop_askGPTInputs caseTable htbl c inputs⟩
    · exact ⟨readLoop_broadcastContents caseTable c inputs,
        readLoop_askGPTInputs caseTable htbl c inputs⟩
  · intro tbl; rfl
  · intro tbl; rfl

theorem control_directive_exemption_witness :
    broadcastContents (Client.read (fun r => r) ⟨1, "a"⟩
        [.frame ⟨"", "", "/help"⟩, .invalid, .frame ⟨"bob", "", "hello"⟩, .readError,
          .frame ⟨"", "", "late"⟩]) = ["/help", "hello"] ∧
    askGPTInputs (Client.read (fun r => r) ⟨1, "a"⟩
        [.frame ⟨"", "", "/help"⟩, .invalid, .frame ⟨"bob", "", "hello"⟩, .readError,
          .frame ⟨"", "", "late"⟩]) = ["hello"] :=
  (control_directive_exemption (fun r => r)
    (fun r h e => by subst e; exact absurd h (by decide)) ⟨1, "a"⟩).2.2.1
      [.frame ⟨"", "", "/help"⟩, .invalid, .frame ⟨"bob", "", "hello"⟩, .readError,
        .frame ⟨"", "", "late"⟩]

theorem readFrame_no_teardown (caseTable : Char → Char) (c x : Client) (incoming : Message) :
    (readFrame caseTable c incoming).count (.unregister x) = 0 ∧
    (readFrame caseTable c incoming).count (.closeSocket x) = 0 := by
  unfold readFrame
  simp only
  split <;> simp [List.count_cons]

theorem readLoop_of_mem_readError (caseTable : Char → Char) (c : Client) :
    ∀ inputs : List Inbound, Inbound.readError ∈ inputs →
      ∃ pre : List Action,
        readLoop caseTable c inputs = (pre ++ [.unregister c, .closeSocket c], true) ∧
        (∀ x, pre.count (.unregister x) = 0) ∧ (∀ x, pre.count (.closeSocket x) = 0) := by
  intro inputs
  induction inputs with
  | nil => intro h; cases h
  | cons i rest ih =>
    intro h
    cases i with
    | readError => exact ⟨[], rfl, by simp, by simp⟩
    | invalid =>
      have h' : Inbound.readError ∈ rest := by simpa using h
      obtain ⟨pre, hp, h1, h2⟩ := ih h'
      refine ⟨.logInvalid :: pre, by simp [readLoop, hp], ?_, ?_⟩
      · intro x; simp [List.count_cons, h1 x]
      · intro x; simp [List.count_cons, h2 x]
    | frame incoming =>
      have h' : Inbound.readError ∈ rest := by simpa using h
      obtain ⟨pre, hp, h1, h2⟩ := ih h'
      refine ⟨readFrame caseTable c incoming ++ pre, by simp [readLoop, hp], ?_, ?_⟩
      · intro x
        rw [List.count_append, h1 x, (readFrame_no_teardown caseTable c x incoming).1]
      · intro x
        rw [List.count_append, h2 x, (readFrame_no_teardown caseTable c x incoming).2]

/-- General form of the double teardown: a run of `Client.read` that meets a read error
ends with the teardown of the error path (lines 203-204) followed by the same teardown of
the deferred function (lines 196-197), and before that it submits no unregister event and
closes no socket. -/
theorem read_teardown_twice (caseTable : Char → Char) (c : Client) (inputs : List Inbound)
    (herr : Inbound.readError ∈ inputs) :
    (∃ pre : List Action,
      c.read caseTable inputs =
        pre ++ [.unregister c, .closeSocket c, .unregister c, .closeSocket c] ∧
      (∀ x, unregisterCount x pre = 0) ∧ (∀ x, closeSocketCount x pre = 0)) ∧
    unregisterCount c (c.read caseTable inputs) = 2 ∧
    closeSocketCount c (c.read caseTable inputs) = 2 := by
  obtain ⟨pre, hp, h1, h2⟩ := readLoop_of_mem_readError caseTable c inputs herr
  have hread : c.read caseTable inputs =
      pre ++ [.unregister c, .closeSocket c, .unregister c, .closeSocket c] := by
    simp [Client.read, hp]
  refine ⟨⟨pre, hread, h1, h2⟩, ?_, ?_⟩
  · rw [hread, unregisterCount, List.count_append, h1 c]
    simp [List.count_cons]
  · rw [hread, closeSocketCount, List.count_append, h2 c]
    simp [List.count_cons]

theorem read_teardown_twice_witness :
    Inbound.readError ∈ [Inbound.frame ⟨"", "", "hi"⟩, .readError] ∧
    unregisterCount ⟨1, "a"⟩
      (Client.read (fun r => r) ⟨1, "a"⟩ [.frame ⟨"", "", "hi"⟩, .readError]) = 2 :=
  ⟨by decide,
    (read_teardown_twice (fun r => r) ⟨1, "a"⟩ [.frame ⟨"", "", "hi"⟩, .readError]
      (by decide)).2.1⟩

/-- C8 (teardown exactly once), evaluated on a run that ends on a read error: the read loop
submits the unregister event for its own connection twice and calls `Close` on its socket
twice, once on the error path (lines 203-204) and once more in the deferred function
(lines 196-197); neither count is one. -/
theorem read_error_tears_down_twice :
    Client.read (fun r => r) ⟨1, "a"⟩ [.readError] =
      [.unregister ⟨1, "a"⟩, .closeSocket ⟨1, "a"⟩,
        .unregister ⟨1, "a"⟩, .closeSocket ⟨1, "a"⟩] ∧
    unregisterCount ⟨1, "a"⟩ (Client.read (fun r => r) ⟨1, "a"⟩ [.readError]) = 2 ∧
    closeSocketCount ⟨1, "a"⟩ (Client.read (fun r => r) ⟨1, "a"⟩ [.readError]) = 2 := by
  decide

/-- C5, the claim as stated fails: with `a`, `b`, `c` registered in that order and every
write loop receiving, the frame that the read loop of `a` submits for content `hi` is sent
by the broadcast pass to `a` as well. -/
theorem broadcast_echo_counterexample :
    manager.start [(allReceive, Event.register ⟨1, "a"⟩),
      (allReceive, Event.register ⟨2, "b"⟩), (allReceive, Event.register ⟨3, "c"⟩)] =
      ⟨.done ⟨[⟨1, "a"⟩, ⟨2, "b"⟩, ⟨3, "c"⟩], []⟩,
        [.send ⟨1, "a"⟩ joinMessage, .send ⟨1, "a"⟩ joinMessage,
          .send ⟨2, "b"⟩ joinMessage]⟩ ∧
    Client.read (fun r => r) ⟨1, "a"⟩ [.frame ⟨"", "", "hi"⟩] =
      [.broadcast ⟨"a", "", "hi"⟩, .askGPT "hi" "a"] ∧
    (ClientManager.mk [⟨1, "a"⟩, ⟨2, "b"⟩, ⟨3, "c"⟩] []).broadcast allReceive
        ⟨"a", "", "hi"⟩ =
      ⟨.done ⟨[⟨1, "a"⟩, ⟨2, "b"⟩, ⟨3, "c"⟩], []⟩,
        [.send ⟨1, "a"⟩ ⟨"a", "", "hi"⟩, .send ⟨2, "b"⟩ ⟨"a", "", "hi"⟩,
          .send ⟨3, "c"⟩ ⟨"a", "", "hi"⟩]⟩ ∧
    sendsTo ⟨1, "a"⟩ ((ClientManager.mk [⟨1, "a"⟩, ⟨2, "b"⟩, ⟨3, "c"⟩] []).broadcast
      allReceive ⟨"a", "", "hi"⟩).trace ≠ 0 := by
  decide

/-- C5 (amended). With three distinct connections `a`, `b`, `c` registered in that order
and every write loop receiving, the registers leave exactly these three as members; for an
inbound frame with blank sender and content `hi` the read loop of `a` submits the frame
with sender `a.id` and content `hi`; and the broadcast pass for it, in whatever order it
visits the members, runs to its end, evicts nobody and sends that frame exactly once to
each of `a`, `b` and `c`, the sender included, and nothing else. -/
theorem broadcast_reaches_all_members (a b c : Client) (hnd : [a, b, c].Nodup)
    (caseTable : Char → Char) (recipient : String) (env : Env)
    (hacc : ∀ x ∈ [a, b, c], env.accepts x = true) :
    (∃ t, manager.start [(allReceive, Event.register a), (allReceive, Event.register b),
        (allReceive, Event.register c)] = ⟨.done ⟨[a, b, c], []⟩, t⟩) ∧
    a.read caseTable [.frame ⟨"", recipient, "hi"⟩] =
      [.broadcast ⟨a.id, "", "hi"⟩, .askGPT "hi" a.id] ∧
    (ClientManager.mk [a, b, c] []).broadcast env ⟨a.id, "", "hi"⟩ =
      ⟨.done ⟨[a, b, c], []⟩,
        (rangeKeys env.rank [a, b, c]).map (fun x => Effect.send x ⟨a.id, "", "hi"⟩)⟩ ∧
    ∀ x ∈ [a, b, c],
      sendCount x ⟨a.id, "", "hi"⟩ ((ClientManager.mk [a, b, c] []).broadcast env
        ⟨a.id, "", "hi"⟩).trace = 1 ∧
      sendsTo x ((ClientManager.mk [a, b, c] []).broadcast env ⟨a.id, "", "hi"⟩).trace = 1 := by
  have hwf : (ClientManager.mk [a, b, c] []).WF := ⟨hnd, by simp⟩
  have hb := broadcast_eq env ⟨a.id, "", "hi"⟩ _ hwf
  have hacc' : ∀ x ∈ rangeKeys env.rank [a, b, c], env.accepts x = true :=
    fun x hx => hacc x ((mem_rangeKeys _ _ x).mp hx)
  have hfa : [a, b, c].filter env.accepts = [a, b, c] :=
    List.filter_eq_self.mpr hacc
  have hfn : (rangeKeys env.rank [a, b, c]).filter (fun x => !env.accepts x) = [] := by
    apply List.filter_eq_nil_iff.mpr
    intro x hx
    simp [hacc' x hx]
  have htr : broadcastTrace env.accepts ⟨a.id, "", "hi"⟩ (rangeKeys env.rank [a, b, c]) =
      (rangeKeys env.rank [a, b, c]).map (fun x => Effect.send x ⟨a.id, "", "hi"⟩) := by
    unfold broadcastTrace
    apply List.map_congr_left
    intro x hx
    rw [if_pos (hacc' x hx)]
  refine ⟨?_, rfl, ?_, ?_⟩
  · obtain ⟨t, ht, _⟩ := start_registers [a, b, c] [(allReceive, Event.register a),
        (allReceive, Event.register b), (allReceive, Event.register c)] manager rfl
      (by simpa [manager] using hnd) (by simp [manager])
      (by
        intro e he x _
        simp only [List.mem_cons, List.mem_singleton, List.not_mem_nil, or_false] at he
        rcases he with h | h | h <;> subst h <;> rfl)
    exact ⟨t, by simpa [manager] using ht⟩
  · rw [hb]
    simp only [hfa, hfn, htr, List.reverse_nil, List.nil_append]
  · intro x hx
    rw [hb, htr, sendCount_map_send, sendsTo_map_send, count_rangeKeys]
    exact ⟨List.count_eq_one_of_mem hnd hx, List.count_eq_one_of_mem hnd hx⟩

theorem broadcast_reaches_all_members_witness :
    [(⟨1, "a"⟩ : Client), ⟨2, "b"⟩, ⟨3, "c"⟩].Nodup ∧
    (ClientManager.mk [⟨1, "a"⟩, ⟨2, "b"⟩, ⟨3, "c"⟩] []).broadcast allReceive
        ⟨"a", "", "hi"⟩ =
      ⟨.done ⟨[⟨1, "a"⟩, ⟨2, "b"⟩, ⟨3, "c"⟩], []⟩,
        [.send ⟨1, "a"⟩ ⟨"a", "", "hi"⟩, .send ⟨2, "b"⟩ ⟨"a", "", "hi"⟩,
          .send ⟨3, "c"⟩ ⟨"a", "", "hi"⟩]⟩ :=
  ⟨by decide,
    (broadcast_reaches_all_members ⟨1, "a"⟩ ⟨2, "b"⟩ ⟨3, "c"⟩ (by decide) (fun r => r)
      "" allReceive (fun _ _ => rfl)).2.2.1⟩

/-! ### The prompt builder -/

theorem userSummary_eq_join (memory : Memory) :
    userSummary memory = String.join (memory.map (fun e => summaryLine e.1 e.2)) := by
  unfold userSummary String.join
  rw [List.foldl_map]

theorem foldl_append_init (l : List String) :
    ∀ init : String, l.foldl (fun r x => r ++ x) init = init ++ l.foldl (fun r x => r ++ x) "" := by
  induction l with
  | nil => intro init; exact (String.append_empty init).symm
  | cons x rest ih =>
    intro init
    simp only [List.foldl_cons]
    rw [ih (init ++ x), ih ("" ++ x), String.empty_append, String.append_assoc]

theorem join_append_cons (l1 l2 : List String) (x : String) :
    String.join (l1 ++ x :: l2) = String.join l1 ++ x ++ String.join l2 := by
  unfold String.join
  rw [List.foldl_append, List.foldl_cons, foldl_append_init l2]

theorem summaryLine_characterEntry (user name race cls : String)
    (h : name ≠ "" ∧ race ≠ "" ∧ cls ≠ "") :
    summaryLine user (characterEntry user name race cls).2 =
      "User " ++ user ++ " plays a " ++ race ++ " " ++ cls ++ " named " ++ name ++ ".\n" := by
  have h1 : stringField [("name", Value.string name), ("race", .string race),
      ("class", .string cls)] "name" = name := rfl
  have h2 : stringField [("name", Value.string name), ("race", .string race),
      ("class", .string cls)] "race" = race := rfl
  have h3 : stringField [("name", Value.string name), ("race", .string race),
      ("class", .string cls)] "class" = cls := rfl
  show (if _ then _ else _) = _
  rw [h1, h2, h3, if_pos h]

/-- C9, the claim as stated fails: for the participant `alice` the user-memory part of the
prompt also holds the summary line of `bob`, and two stores with the same entry for `alice`
give different system prompts. -/
theorem prompt_summary_counterexample :
    userSummary [characterEntry "alice" "Al" "Orc" "Mage",
        characterEntry "bob" "Bo" "Elf" "Rogue"] =
      "User alice plays a Orc Mage named Al.\nUser bob plays a Elf Rogue named Bo.\n" ∧
    summaryLine "alice" (characterEntry "alice" "Al" "Orc" "Mage").2 =
      "User alice plays a Orc Mage named Al.\n" ∧
    List.lookup "alice" [characterEntry "alice" "Al" "Orc" "Mage",
        characterEntry "bob" "Bo" "Elf" "Rogue"] =
      List.lookup "alice" [characterEntry "alice" "Al" "Orc" "Mage"] ∧
    systemPrompt [characterEntry "alice" "Al" "Orc" "Mage",
        characterEntry "bob" "Bo" "Elf" "Rogue"] "hi" "alice" ≠
      systemPrompt [characterEntry "alice" "Al" "Orc" "Mage"] "hi" "alice" := by
  refine ⟨by decide, by decide, rfl, by decide⟩

theorem stringField_of_lookup (m : List (String × Value)) (key s : String)
    (h : m.lookup key = some (.string s)) : stringField m key = s := by
  unfold stringField
  rw [h]

theorem lookup_of_stringField_ne (m : List (String × Value)) (key : String)
    (h : stringField m key ≠ "") : m.lookup key = some (.string (stringField m key)) := by
  unfold stringField at h ⊢
  cases hl : m.lookup key with
  | none => rw [hl] at h; exact absurd rfl h
  | some v =>
    rw [hl] at h
    cases v with
    | string s => rfl
    | null => exact absurd rfl h
    | bool b => exact absurd rfl h
    | number n => exact absurd rfl h
    | array vs => exact absurd rfl h
    | object kvs => exact absurd rfl h

theorem summaryLine_object (userKey : String) (kvs char : List (String × Value))
    (h : kvs.lookup "character" = some (.object char)) :
    summaryLine userKey (.object kvs) =
      if stringField char "name" ≠ "" ∧ stringField char "race" ≠ "" ∧
          stringField char "class" ≠ "" then
        "User " ++ userKey ++ " plays a " ++ stringField char "race" ++ " " ++
          stringField char "class" ++ " named " ++ stringField char "name" ++ ".\n"
      else "" := by
  unfold summaryLine
  simp only [Value.asObject]
  rw [h]
  rfl

theorem summaryLine_of_character (userKey : String) (kvs char : List (String × Value))
    (name race cls : String) (h : kvs.lookup "character" = some (.object char))
    (hn : char.lookup "name" = some (.string name))
    (hr : char.lookup "race" = some (.string race))
    (hc : char.lookup "class" = some (.string cls)) :
    summaryLine userKey (.object kvs) =
      if name ≠ "" ∧ race ≠ "" ∧ cls ≠ "" then
        "User " ++ userKey ++ " plays a " ++ race ++ " " ++ cls ++ " named " ++ name ++ ".\n"
      else "" := by
  rw [summaryLine_object userKey kvs char h, stringField_of_lookup _ _ _ hn,
    stringField_of_lookup _ _ _ hr, stringField_of_lookup _ _ _ hc]

theorem summaryLine_eq_empty (userKey : String) (v : Value)
    (h : ¬ ∃ (kvs char : List (String × Value)) (name race cls : String),
      v = .object kvs ∧ kvs.lookup "character" = some (.object char) ∧
      char.lookup "name" = some (.string name) ∧ char.lookup "race" = some (.string race) ∧
      char.lookup "class" = some (.string cls) ∧ name ≠ "" ∧ race ≠ "" ∧ cls ≠ "") :
    summaryLine userKey v = "" := by
  cases v with
  | null => rfl
  | bool b => rfl
  | number n => rfl
  | string s => rfl
  | array vs => rfl
  | object kvs =>
    cases hl : kvs.lookup "character" with
    | none => unfold summaryLine; simp only [Value.asObject]; rw [hl]; rfl
    | some w =>
      cases w with
      | null => unfold summaryLine; simp only [Value.asObject]; rw [hl]; rfl
      | bool b => unfold summaryLine; simp only [Value.asObject]; rw [hl]; rfl
      | number n => unfold summaryLine; simp only [Value.asObject]; rw [hl]; rfl
      | string s => unfold summaryLine; simp only [Value.asObject]; rw [hl]; rfl
      | array vs => unfold summaryLine; simp only [Value.asObject]; rw [hl]; rfl
      | object char =>
        rw [summaryLine_object userKey kvs char hl]
        by_cases hcond : stringField char "name" ≠ "" ∧ stringField char "race" ≠ "" ∧
            stringField char "class" ≠ ""
        · exact absurd ⟨kvs, char, stringField char "name", stringField char "race",
            stringField char "class", rfl, hl,
            lookup_of_stringField_ne _ _ hcond.1, lookup_of_stringField_ne _ _ hcond.2.1,
            lookup_of_stringField_ne _ _ hcond.2.2, hcond⟩ h
        · rw [if_neg hcond]

/-- C9 (amended). The user-memory part of the system prompt is the concatenation, in the
order the store is visited, of the summary lines of all entries of the store, whatever
participant sent the prompt.  The line of an entry is fixed entry by entry: an entry that
is an object whose `character` is an object with string fields `name`, `race` and `class`,
all non-empty, gives the line `User <key> plays a <race> <class> named <name>.` with its own
key, whatever other keys the objects hold, so also the entries `saveCharacter` writes;
every other entry (not an object, no `character` object, a field absent, not a string or
empty) gives no line.  The participant label is not used: the system prompt is the same for
every label, so it is a function of the whole store and the prompt. -/
theorem prompt_summary_all_entries (memory : Memory) (prompt : String) :
    userSummary memory = String.join (memory.map (fun e => summaryLine e.1 e.2)) ∧
    (∀ (pre post : Memory) (e : String × Value), memory = pre ++ e :: post →
      userSummary memory = userSummary pre ++ summaryLine e.1 e.2 ++ userSummary post) ∧
    (∀ user name race cls : String, name ≠ "" ∧ race ≠ "" ∧ cls ≠ "" →
      summaryLine user (characterEntry user name race cls).2 =
        "User " ++ user ++ " plays a " ++ race ++ " " ++ cls ++ " named " ++ name ++ ".\n") ∧
    (∀ u u2 : String, systemPrompt memory prompt u = systemPrompt memory prompt u2) ∧
    (∀ u : String, systemPrompt memory prompt u =
      "You are a tactical assistant for World of Warcraft 2v2 PvP matches.\n" ++
        (if userSummary memory ≠ "" then "User memory:\n" ++ userSummary memory else "") ++
        (if prompt.data.count ',' ≥ 1 then pvpInstructions else "")) ∧
    (∀ (userKey : String) (kvs char : List (String × Value)) (name race cls : String),
      kvs.lookup "character" = some (.object char) →
      char.lookup "name" = some (.string name) →
      char.lookup "race" = some (.string race) →
      char.lookup "class" = some (.string cls) →
      summaryLine userKey (.object kvs) =
        if name ≠ "" ∧ race ≠ "" ∧ cls ≠ "" then
          "User " ++ userKey ++ " plays a " ++ race ++ " " ++ cls ++ " named " ++ name ++ ".\n"
        else "") ∧
    (∀ (userKey : String) (v : Value),
      (¬ ∃ (kvs char : List (String × Value)) (name race cls : String),
        v = .object kvs ∧ kvs.lookup "character" = some (.object char) ∧
        char.lookup "name" = some (.string name) ∧
        char.lookup "race" = some (.string race) ∧
        char.lookup "class" = some (.string cls) ∧ name ≠ "" ∧ race ≠ "" ∧ cls ≠ "") →
      summaryLine userKey v = "") ∧
    (∀ (user name race cls realm : String) (talents : Value),
      summaryLine user (savedEntry user name race cls realm talents).2 =
        if name ≠ "" ∧ race ≠ "" ∧ cls ≠ "" then
          "User " ++ user ++ " plays a " ++ race ++ " " ++ cls ++ " named " ++ name ++ ".\n"
        else "") := by
  refine ⟨userSummary_eq_join memory, ?_, summaryLine_characterEntry, fun _ _ => rfl, ?_,
    summaryLine_of_character, summaryLine_eq_empty, ?_⟩
  · intro pre post e h
    subst h
    simp only [userSummary_eq_join, List.map_append, List.map_cons]
    exact join_append_cons _ _ _
  · intro u
    unfold systemPrompt
    simp only
    split_ifs <;> simp only [String.append_assoc, String.append_empty]
  · intro user name race cls realm talents
    exact summaryLine_of_character user _ _ name race cls rfl rfl rfl rfl

theorem prompt_summary_all_entries_witness :
    userSummary [characterEntry "alice" "Al" "Orc" "Mage",
        characterEntry "bob" "Bo" "Elf" "Rogue"] =
      userSummary [characterEntry "alice" "Al" "Orc" "Mage"] ++
        summaryLine "bob" (characterEntry "bob" "Bo" "Elf" "Rogue").2 ++ userSummary [] :=
  (prompt_summary_all_entries [characterEntry "alice" "Al" "Orc" "Mage",
      characterEntry "bob" "Bo" "Elf" "Rogue"] "hi").2.1
    [characterEntry "alice" "Al" "Orc" "Mage"] [] (characterEntry "bob" "Bo" "Elf" "Rogue") rfl
end WoWBot
